import Mathlib

/-!
Verification development for the lab0-c queue (`src/queue.c`).

The queue is a circular doubly-linked list with a sentinel head node
(`struct list_head`), each element (`element_t`) embedding a link node and
owning a heap-allocated C string.  We model the code at two levels:

* a heap level: a heap is a total map from addresses (`Nat`) to nodes
  (`next`/`prev` pairs of addresses), and each list primitive of the code is
  a heap transformer performing exactly the pointer writes of the source;
* a value level: queue contents as `List Str` where `Str` is a C string
  modelled as its list of bytes before the terminating null byte.

All definitions are translated from `src/queue.c`; the list primitives of
`list.h` (not shipped under `src/`) are modelled from the spec, section 4.1.
-/

set_option maxHeartbeats 1000000

/-- Byte string: the contents of a null-terminated C string, i.e. the bytes
strictly before the terminator.  A well-formed C string has no interior null
byte, so its bytes are positive (`strOk`). -/
abbrev Str := List Nat

/-- Well-formed C string contents: every byte is nonzero (a zero byte would
terminate the string early). -/
def strOk (s : Str) : Prop := ∀ c ∈ s, 0 < c

instance (s : Str) : Decidable (strOk s) := List.decidableBAll _ s

/-- Model of C `strcmp` on the byte lists of two null-terminated strings.
Compares byte by byte; on the first difference returns the (signed) byte
difference; a string that is a strict prefix of the other compares as if its
terminating zero byte were compared with the other's next byte. -/
def strcmp : Str → Str → Int
  | [], [] => 0
  | [], b :: _ => -(b : Int)
  | a :: _, [] => (a : Int)
  | a :: as, b :: bs => if a = b then strcmp as bs else (a : Int) - (b : Int)

theorem strcmp_self (s : Str) : strcmp s s = 0 := by
  induction s with
  | nil => rfl
  | cons a as ih => simp [strcmp, ih]

theorem strcmp_swap (a b : Str) : strcmp b a = -strcmp a b := by
  induction a generalizing b with
  | nil => cases b <;> simp [strcmp]
  | cons x as ih =>
    cases b with
    | nil => simp [strcmp]
    | cons y bs =>
      by_cases h : x = y
      · subst h; simp [strcmp, ih]
      · have h' : y ≠ x := fun hh => h hh.symm
        simp only [strcmp, if_neg h, if_neg h']
        omega

theorem strcmp_total (a b : Str) : strcmp a b ≤ 0 ∨ strcmp b a ≤ 0 := by
  rcases le_or_lt (strcmp a b) 0 with h | h
  · exact Or.inl h
  · right; rw [strcmp_swap]; omega

/-- Transitivity of the `strcmp`-order; interior bytes of the first two
strings must be nonzero (true of real C strings). -/
theorem strcmp_trans {a b c : Str} (ha : strOk a) (hb : strOk b)
    (hab : strcmp a b ≤ 0) (hbc : strcmp b c ≤ 0) : strcmp a c ≤ 0 := by
  induction a generalizing b c with
  | nil =>
    cases c with
    | nil => simp [strcmp]
    | cons z cs => simp [strcmp]
  | cons x as ih =>
    cases b with
    | nil =>
      exfalso
      have hx : 0 < x := ha x (List.mem_cons_self x as)
      simp [strcmp] at hab
      omega
    | cons y bs =>
      cases c with
      | nil =>
        exfalso
        have hy : 0 < y := hb y (List.mem_cons_self y bs)
        by_cases hxy : x = y <;> simp [strcmp, hxy] at hbc <;> omega
      | cons z cs =>
        have ha' : strOk as := fun u hu => ha u (List.mem_cons_of_mem _ hu)
        have hb' : strOk bs := fun u hu => hb u (List.mem_cons_of_mem _ hu)
        by_cases hxy : x = y
        · subst hxy
          simp [strcmp] at hab
          by_cases hyz : x = z
          · subst hyz
            simp [strcmp] at hbc ⊢
            exact ih ha' hb' hab hbc
          · simp [strcmp, hyz] at hbc ⊢
            omega
        · simp [strcmp, hxy] at hab
          by_cases hyz : y = z
          · have hxz : x ≠ z := hyz ▸ hxy
            simp [strcmp, hxz]
            omega
          · simp [strcmp, hyz] at hbc
            have hxz : x ≠ z := by omega
            simp [strcmp, hxz]
            omega

theorem strcmp_eq_zero_iff {a b : Str} (ha : strOk a) (hb : strOk b) :
    strcmp a b = 0 ↔ a = b := by
  constructor
  · intro h
    induction a generalizing b with
    | nil =>
      cases b with
      | nil => rfl
      | cons y bs =>
        have hy : 0 < y := hb y (List.mem_cons_self y bs)
        simp [strcmp] at h
        omega
    | cons x as ih =>
      cases b with
      | nil =>
        have hx : 0 < x := ha x (List.mem_cons_self x as)
        simp [strcmp] at h
        omega
      | cons y bs =>
        by_cases hxy : x = y
        · subst hxy
          simp [strcmp] at h
          have := ih (fun u hu => ha u (List.mem_cons_of_mem _ hu))
            (fun u hu => hb u (List.mem_cons_of_mem _ hu)) h
          rw [this]
        · simp [strcmp, hxy] at h
          omega
  · intro h; subst h; exact strcmp_self a

/-!
Merge sort engine (`src/queue.c` lines 291-365).

During the sort the list is a null-terminated singly-linked (`next`-only)
chain — see the comment on `merge()` in the source — so we model the chain
as a Lean `List` of its elements and the engine as functions on lists,
generic in the comparison function exactly as the C code is generic in
`list_cmp_func_t`.
-/

/-- Model of `merge()` (queue.c lines 297-324): merges two chains; while both
are non-empty, takes the left element when `cmp a b <= 0`, the right one
otherwise; when one chain runs out the other is appended wholesale.  (In the
source both arguments are non-null on entry; the equations for an empty
argument encode the `*tail = b; break;` / `*tail = a; break;` exits.) -/
def cMerge (cmp : α → α → Int) : List α → List α → List α
  | [], b => b
  | a, [] => a
  | x :: xs, y :: ys =>
    if cmp x y ≤ 0 then x :: cMerge cmp xs (y :: ys)
    else y :: cMerge cmp (x :: xs) ys

/-- Number of fast/slow iterations in `merge_sort()` (queue.c lines 355-360):
`slow` starts at the second chain node and advances once per iteration while
`fast` (starting at the third node) advances twice and has not run off the
chain.  The argument is the chain starting at the initial `fast` position,
the accumulator the current index of `slow`. -/
def cSplitIdx : List α → Nat → Nat
  | [], i => i
  | [_], i => i
  | _ :: _ :: rest, i => cSplitIdx rest (i + 1)

/-- Split position of `merge_sort()`: index of `slow` when the loop stops
(the chain is cut just before `slow` by `slow->prev->next = NULL`). -/
def splitPoint (l : List α) : Nat := cSplitIdx (l.drop 2) 1

theorem cSplitIdx_eq (l : List α) (i : Nat) : cSplitIdx l i = i + l.length / 2 := by
  induction l, i using cSplitIdx.induct <;> simp_all [cSplitIdx] <;> omega

theorem splitPoint_eq (l : List α) : splitPoint l = if l.length ≤ 1 then 1 else l.length / 2 := by
  unfold splitPoint
  rw [cSplitIdx_eq]
  rcases l with _ | ⟨a, _ | ⟨b, t⟩⟩ <;> simp <;> omega

theorem splitPoint_pos (l : List α) : 1 ≤ splitPoint l := by
  rw [splitPoint_eq]; split <;> omega

theorem splitPoint_lt (l : List α) (h : 2 ≤ l.length) : splitPoint l < l.length := by
  rw [splitPoint_eq]
  split <;> omega

/-- Model of `merge_sort()` (queue.c lines 350-365): single node is already
sorted (`head->next == NULL`); otherwise cut the chain at the `slow`
position and merge the recursively sorted halves.  The empty chain is added
for totality (the source never calls `merge_sort` on an empty chain). -/
def cMergeSort (cmp : α → α → Int) : List α → List α
  | [] => []
  | [x] => [x]
  | x :: y :: t =>
    cMerge cmp (cMergeSort cmp ((x :: y :: t).take (splitPoint (x :: y :: t))))
      (cMergeSort cmp ((x :: y :: t).drop (splitPoint (x :: y :: t))))
termination_by l => l.length
decreasing_by
  · have h2 : 2 ≤ (x :: y :: t).length := by simp only [List.length_cons]; omega
    have h1 := splitPoint_lt (x :: y :: t) h2
    have h0 := splitPoint_pos (x :: y :: t)
    simp only [List.length_take]
    omega
  · have h0 := splitPoint_pos (x :: y :: t)
    simp only [List.length_drop, List.length_cons]
    omega

section MergeSortCorrectness

variable {α : Type} (cmp : α → α → Int)

theorem cMerge_perm : ∀ a b : List α, (cMerge cmp a b).Perm (a ++ b) := by
  intro a
  induction a with
  | nil => intro b; simp [cMerge]
  | cons x xs ihx =>
    intro b
    induction b with
    | nil => simp [cMerge]
    | cons y ys ihy =>
      by_cases h : cmp x y ≤ 0
      · simpa [cMerge, h] using (ihx (y :: ys)).cons x
      · have he : cMerge cmp (x :: xs) (y :: ys) = y :: cMerge cmp (x :: xs) ys := by
          simp [cMerge, h]
        rw [he]
        exact (ihy.cons y).trans List.perm_middle.symm

theorem cMergeSort_perm (l : List α) : (cMergeSort cmp l).Perm l := by
  have H : ∀ n (l : List α), l.length ≤ n → (cMergeSort cmp l).Perm l := by
    intro n
    induction n with
    | zero =>
      intro l hl
      have : l = [] := List.length_eq_zero.mp (Nat.le_zero.mp hl)
      subst this
      simp [cMergeSort]
    | succ n ih =>
      intro l hl
      match l with
      | [] => simp [cMergeSort]
      | [x] => simp [cMergeSort]
      | x :: y :: t =>
        rw [cMergeSort]
        set L := x :: y :: t with hL
        have h2 : 2 ≤ L.length := by simp [hL]
        have hk1 := splitPoint_pos L
        have hk2 := splitPoint_lt L h2
        have p1 : (cMergeSort cmp (L.take (splitPoint L))).Perm (L.take (splitPoint L)) := by
          refine ih _ ?_
          simp only [List.length_take]
          omega
        have p2 : (cMergeSort cmp (L.drop (splitPoint L))).Perm (L.drop (splitPoint L)) := by
          refine ih _ ?_
          simp only [List.length_drop]
          omega
        refine ((cMerge_perm cmp _ _).trans (p1.append p2)).trans ?_
        rw [List.take_append_drop]
  exact H l.length l le_rfl

theorem cMerge_pairwise (P : α → Prop)
    (hflip : ∀ x y, P x → P y → 0 < cmp x y → cmp y x ≤ 0)
    (htrans : ∀ x y z, P x → P y → P z → cmp x y ≤ 0 → cmp y z ≤ 0 → cmp x z ≤ 0) :
    ∀ a b : List α, (∀ u ∈ a, P u) → (∀ u ∈ b, P u) →
      a.Pairwise (fun u v => cmp u v ≤ 0) → b.Pairwise (fun u v => cmp u v ≤ 0) →
      (cMerge cmp a b).Pairwise (fun u v => cmp u v ≤ 0) := by
  intro a
  induction a with
  | nil => intro b _ _ _ hpb; simpa [cMerge] using hpb
  | cons x xs ihx =>
    intro b
    induction b with
    | nil => intro _ _ hpa _; simpa [cMerge] using hpa
    | cons y ys ihy =>
      intro hPa hPb hpa hpb
      by_cases h : cmp x y ≤ 0
      · rw [show cMerge cmp (x :: xs) (y :: ys) = x :: cMerge cmp xs (y :: ys) from by
          simp [cMerge, h]]
        refine List.Pairwise.cons ?_
          (ihx (y :: ys) (fun u hu => hPa u (.tail _ hu)) hPb hpa.of_cons hpb)
        intro v hv
        have hv' : v ∈ xs ++ (y :: ys) := (cMerge_perm cmp xs (y :: ys)).mem_iff.mp hv
        rcases List.mem_append.mp hv' with hvxs | hvy
        · exact (List.pairwise_cons.mp hpa).1 v hvxs
        · rcases List.mem_cons.mp hvy with rfl | hvys
          · exact h
          · exact htrans x y v (hPa x (.head _)) (hPb y (.head _))
              (hPb v (.tail _ hvys)) h ((List.pairwise_cons.mp hpb).1 v hvys)
      · rw [show cMerge cmp (x :: xs) (y :: ys) = y :: cMerge cmp (x :: xs) ys from by
          simp [cMerge, h]]
        have hyx : cmp y x ≤ 0 :=
          hflip x y (hPa x (.head _)) (hPb y (.head _)) (by omega)
        refine List.Pairwise.cons ?_
          (ihy hPa (fun u hu => hPb u (.tail _ hu)) hpa hpb.of_cons)
        intro v hv
        have hv' : v ∈ (x :: xs) ++ ys := (cMerge_perm cmp (x :: xs) ys).mem_iff.mp hv
        rcases List.mem_append.mp hv' with hvx | hvys
        · rcases List.mem_cons.mp hvx with rfl | hvxs
          · exact hyx
          · exact htrans y x v (hPb y (.head _)) (hPa x (.head _))
              (hPa v (.tail _ hvxs)) hyx ((List.pairwise_cons.mp hpa).1 v hvxs)
        · exact (List.pairwise_cons.mp hpb).1 v hvys

theorem cMergeSort_pairwise (P : α → Prop)
    (hflip : ∀ x y, P x → P y → 0 < cmp x y → cmp y x ≤ 0)
    (htrans : ∀ x y z, P x → P y → P z → cmp x y ≤ 0 → cmp y z ≤ 0 → cmp x z ≤ 0)
    (l : List α) (hP : ∀ u ∈ l, P u) :
    (cMergeSort cmp l).Pairwise (fun u v => cmp u v ≤ 0) := by
  have H : ∀ n (l : List α), l.length ≤ n → (∀ u ∈ l, P u) →
      (cMergeSort cmp l).Pairwise (fun u v => cmp u v ≤ 0) := by
    intro n
    induction n with
    | zero =>
      intro l hl _
      have : l = [] := List.length_eq_zero.mp (Nat.le_zero.mp hl)
      subst this
      simp [cMergeSort]
    | succ n ih =>
      intro l hl hPl
      match l with
      | [] => simp [cMergeSort]
      | [x] => simp [cMergeSort]
      | x :: y :: t =>
        rw [cMergeSort]
        set L := x :: y :: t with hL
        have h2 : 2 ≤ L.length := by simp [hL]
        have hk1 := splitPoint_pos L
        have hk2 := splitPoint_lt L h2
        have hPt : ∀ u ∈ L.take (splitPoint L), P u :=
          fun u hu => hPl u (List.take_subset _ _ hu)
        have hPd : ∀ u ∈ L.drop (splitPoint L), P u :=
          fun u hu => hPl u (List.drop_subset _ _ hu)
        have s1 := ih (L.take (splitPoint L))
          (by simp only [List.length_take]; omega) hPt
        have s2 := ih (L.drop (splitPoint L))
          (by simp only [List.length_drop]; omega) hPd
        refine cMerge_pairwise cmp P hflip htrans _ _ ?_ ?_ s1 s2
        · exact fun u hu => hPt u ((cMergeSort_perm cmp _).mem_iff.mp hu)
        · exact fun u hu => hPd u ((cMergeSort_perm cmp _).mem_iff.mp hu)
  exact H l.length l le_rfl hP

theorem cMerge_filter (P : α → Prop) (Q : α → Bool)
    (hQ : ∀ x y, Q x = true → Q y = true → cmp x y ≤ 0)
    (htrans : ∀ x y z, P x → P y → P z → cmp x y ≤ 0 → cmp y z ≤ 0 → cmp x z ≤ 0) :
    ∀ a b : List α, (∀ u ∈ a, P u) → (∀ u ∈ b, P u) →
      a.Pairwise (fun u v => cmp u v ≤ 0) →
      (cMerge cmp a b).filter Q = a.filter Q ++ b.filter Q := by
  intro a
  induction a with
  | nil => intro b _ _ _; simp [cMerge]
  | cons x xs ihx =>
    intro b
    induction b with
    | nil => intro _ _ _; simp [cMerge]
    | cons y ys ihy =>
      intro hPa hPb hpa
      by_cases h : cmp x y ≤ 0
      · rw [show cMerge cmp (x :: xs) (y :: ys) = x :: cMerge cmp xs (y :: ys) from by
          simp [cMerge, h]]
        rw [List.filter_cons, List.filter_cons,
          ihx (y :: ys) (fun u hu => hPa u (.tail _ hu)) hPb hpa.of_cons]
        cases hQx : Q x <;> simp
      · rw [show cMerge cmp (x :: xs) (y :: ys) = y :: cMerge cmp (x :: xs) ys from by
          simp [cMerge, h]]
        rw [List.filter_cons, List.filter_cons,
          ihy hPa (fun u hu => hPb u (.tail _ hu)) hpa]
        cases hQy : Q y with
        | false => simp [List.filter_cons, hQy]
        | true =>
          have hnil : (x :: xs).filter Q = [] := by
            rw [List.filter_eq_nil_iff]
            intro u hu hQu
            rcases List.mem_cons.mp hu with rfl | huxs
            · exact h (hQ u y hQu hQy)
            · exact h (htrans x u y (hPa x (.head _)) (hPa u (.tail _ huxs))
                (hPb y (.head _)) ((List.pairwise_cons.mp hpa).1 u huxs) (hQ u y hQu hQy))
          rw [List.filter_cons] at hnil
          cases hQx : Q x
          · rw [hQx] at hnil
            simp only [Bool.false_eq_true, if_false] at hnil
            simp [List.filter_cons, hQy, hQx, hnil]
          · rw [hQx] at hnil
            simp at hnil

theorem cMergeSort_filter (P : α → Prop) (Q : α → Bool)
    (hflip : ∀ x y, P x → P y → 0 < cmp x y → cmp y x ≤ 0)
    (hQ : ∀ x y, Q x = true → Q y = true → cmp x y ≤ 0)
    (htrans : ∀ x y z, P x → P y → P z → cmp x y ≤ 0 → cmp y z ≤ 0 → cmp x z ≤ 0)
    (l : List α) (hP : ∀ u ∈ l, P u) :
    (cMergeSort cmp l).filter Q = l.filter Q := by
  have H : ∀ n (l : List α), l.length ≤ n → (∀ u ∈ l, P u) →
      (cMergeSort cmp l).filter Q = l.filter Q := by
    intro n
    induction n with
    | zero =>
      intro l hl _
      have : l = [] := List.length_eq_zero.mp (Nat.le_zero.mp hl)
      subst this
      simp [cMergeSort]
    | succ n ih =>
      intro l hl hPl
      match l with
      | [] => simp [cMergeSort]
      | [x] => simp [cMergeSort]
      | x :: y :: t =>
        rw [cMergeSort]
        set L := x :: y :: t with hL
        have h2 : 2 ≤ L.length := by simp [hL]
        have hk1 := splitPoint_pos L
        have hk2 := splitPoint_lt L h2
        have hPt : ∀ u ∈ L.take (splitPoint L), P u :=
          fun u hu => hPl u (List.take_subset _ _ hu)
        have hPd : ∀ u ∈ L.drop (splitPoint L), P u :=
          fun u hu => hPl u (List.drop_subset _ _ hu)
        have hPt' : ∀ u ∈ cMergeSort cmp (L.take (splitPoint L)), P u :=
          fun u hu => hPt u ((cMergeSort_perm cmp _).mem_iff.mp hu)
        have hPd' : ∀ u ∈ cMergeSort cmp (L.drop (splitPoint L)), P u :=
          fun u hu => hPd u ((cMergeSort_perm cmp _).mem_iff.mp hu)
        have s1 := cMergeSort_pairwise cmp P hflip htrans (L.take (splitPoint L)) hPt
        rw [cMerge_filter cmp P Q hQ htrans _ _ hPt' hPd' s1,
          ih _ (by simp only [List.length_take]; omega) hPt,
          ih _ (by simp only [List.length_drop]; omega) hPd,
          ← List.filter_append, List.take_append_drop]
  exact H l.length l le_rfl hP

end MergeSortCorrectness

/-!
Heap model of the intrusive circular doubly-linked list.

A `struct list_head` is a pair of pointers; we model pointers as natural
numbers (addresses) and the program memory as a total map from addresses to
nodes.  The `list.h` primitives used by `queue.c` are not shipped under
`src/`; they are modelled from the spec, section 4.1, as the standard
O(1) pointer splices.
-/

/-- Model of `struct list_head`: a `next` and a `prev` pointer. -/
structure Node where
  next : Nat
  prev : Nat
deriving DecidableEq

/-- Program memory: a total map from addresses to list nodes. -/
abbrev Heap := Nat → Node

/-- Heap update at one address. -/
def hupd (h : Heap) (a : Nat) (n : Node) : Heap := fun x => if x = a then n else h x

/-- Write the `next` field of the node at `a`. -/
def setNext (h : Heap) (a b : Nat) : Heap := hupd h a { h a with next := b }

/-- Write the `prev` field of the node at `a`. -/
def setPrev (h : Heap) (a b : Nat) : Heap := hupd h a { h a with prev := b }

@[simp] theorem hupd_same (h : Heap) (a : Nat) (n : Node) : hupd h a n a = n := by
  simp [hupd]

theorem hupd_other (h : Heap) (a : Nat) (n : Node) (x : Nat) (hx : x ≠ a) :
    hupd h a n x = h x := by
  simp [hupd, hx]

/-- Modelled from the spec: `INIT_LIST_HEAD` (list.h, spec 4.1 `new()`):
point the node's `next` and `prev` at itself. -/
def INIT_LIST_HEAD (h : Heap) (a : Nat) : Heap := hupd h a ⟨a, a⟩

/-- Modelled from the spec: `list_add(new, head)` (list.h, spec 4.1
`insert_after`): splice the node `nw` between `hd` and `hd->next` — writes
`hd->next->prev = nw`, `nw->next = hd->next`, `nw->prev = hd`,
`hd->next = nw`. -/
def list_add (h : Heap) (nw hd : Nat) : Heap :=
  let nxt := (h hd).next
  setNext (setPrev (setNext (setPrev h nxt nw) nw nxt) nw hd) hd nw

/-- Modelled from the spec: `list_add_tail(new, head)` (list.h, spec 4.1
`insert_before`): splice the node `nw` between `hd->prev` and `hd` — writes
`hd->prev = nw`, `nw->next = hd`, `nw->prev = old prev`,
`old prev->next = nw`. -/
def list_add_tail (h : Heap) (nw hd : Nat) : Heap :=
  let prv := (h hd).prev
  setNext (setPrev (setNext (setPrev h hd nw) nw hd) nw prv) prv nw

/-- Modelled from the spec: `list_del(entry)` (list.h, spec 4.1 `delete`):
unlink the node — `entry->next->prev = entry->prev`,
`entry->prev->next = entry->next`; the node's own pointers are left
dangling. -/
def list_del (h : Heap) (a : Nat) : Heap :=
  let p := (h a).prev
  let n := (h a).next
  setNext (setPrev h n p) p n

/-- Modelled from the spec: `list_move_tail(node, head)` (list.h, spec 4.1
`move_to`): unlink `node`, then insert it before `hd`. -/
def list_move_tail (h : Heap) (a hd : Nat) : Heap := list_add_tail (list_del h a) a hd

/-- Modelled from the spec: `list_empty(head)` (list.h, spec 4.1):
true iff `head->next == head`. -/
def list_empty (h : Heap) (hd : Nat) : Bool := (h hd).next == hd

/-- Modelled from the spec: `list_is_singular(head)` (list.h, spec 4.1):
true iff the list is non-empty and `head->next->next == head`. -/
def list_is_singular (h : Heap) (hd : Nat) : Bool :=
  !list_empty h hd && (h ((h hd).next)).next == hd

/-- Doubly-linked chain predicate: starting at node `a`, the `next` pointers
run through the addresses of `l` in order and then reach `z`, and each link
is mirrored by the target's `prev` pointer. -/
def LinkedNP (h : Heap) : Nat → List Nat → Nat → Prop
  | a, [], z => (h a).next = z ∧ (h z).prev = a
  | a, b :: l, z => (h a).next = b ∧ (h b).prev = a ∧ LinkedNP h b l z

instance decLinkedNP (h : Heap) (a : Nat) (l : List Nat) (z : Nat) :
    Decidable (LinkedNP h a l z) :=
  match l with
  | [] => inferInstanceAs (Decidable (_ ∧ _))
  | b :: l' =>
    have : Decidable (LinkedNP h b l' z) := decLinkedNP h b l' z
    inferInstanceAs (Decidable (_ ∧ _ ∧ _))

/-- Circular doubly-linked list: from the sentinel `hd`, the `next` chain
runs through `addrs` and closes back at `hd`, with consistent `prev`
pointers throughout. -/
def IsRing (h : Heap) (hd : Nat) (addrs : List Nat) : Prop := LinkedNP h hd addrs hd

instance decIsRing (h : Heap) (hd : Nat) (addrs : List Nat) : Decidable (IsRing h hd addrs) :=
  decLinkedNP h hd addrs hd

/-- Next-only chain predicate (the singly-linked view used by merge sort). -/
def NextChain (h : Heap) : Nat → List Nat → Nat → Prop
  | a, [], z => (h a).next = z
  | a, b :: l, z => (h a).next = b ∧ NextChain h b l z

theorem linkedNP_append (h : Heap) (a b z : Nat) (l1 l2 : List Nat) :
    LinkedNP h a (l1 ++ b :: l2) z ↔ (LinkedNP h a l1 b ∧ LinkedNP h b l2 z) := by
  induction l1 generalizing a with
  | nil => simp [LinkedNP, and_assoc]
  | cons c l1' ih => simp [LinkedNP, ih, and_assoc]

theorem linkedNP_congr (h1 h2 : Heap) (a z : Nat) (l : List Nat)
    (hn : (h1 a).next = (h2 a).next) (hm : ∀ x ∈ l, h1 x = h2 x)
    (hp : (h1 z).prev = (h2 z).prev) :
    LinkedNP h1 a l z ↔ LinkedNP h2 a l z := by
  induction l generalizing a with
  | nil => simp [LinkedNP, hn, hp]
  | cons b l' ih =>
    have hb : h1 b = h2 b := hm b (.head _)
    simp only [LinkedNP, hn, hb]
    rw [ih b (by rw [hb]) (fun x hx => hm x (.tail _ hx))]

theorem isRing_rotate (h : Heap) (x y : Nat) (u v : List Nat) :
    IsRing h x (u ++ y :: v) ↔ IsRing h y (v ++ x :: u) := by
  unfold IsRing
  rw [linkedNP_append, linkedNP_append, and_comm]

@[simp] theorem setNext_next (h : Heap) (a b x : Nat) :
    ((setNext h a b) x).next = if x = a then b else (h x).next := by
  unfold setNext hupd
  split <;> simp

@[simp] theorem setNext_prev (h : Heap) (a b x : Nat) :
    ((setNext h a b) x).prev = (h x).prev := by
  unfold setNext hupd
  split <;> simp_all

@[simp] theorem setPrev_prev (h : Heap) (a b x : Nat) :
    ((setPrev h a b) x).prev = if x = a then b else (h x).prev := by
  unfold setPrev hupd
  split <;> simp

@[simp] theorem setPrev_next (h : Heap) (a b x : Nat) :
    ((setPrev h a b) x).next = (h x).next := by
  unfold setPrev hupd
  split <;> simp_all

theorem list_del_next (h : Heap) (a x : Nat) :
    ((list_del h a) x).next = if x = (h a).prev then (h a).next else (h x).next := by
  simp [list_del]

theorem list_del_prev (h : Heap) (a x : Nat) :
    ((list_del h a) x).prev = if x = (h a).next then (h a).prev else (h x).prev := by
  simp [list_del]

theorem list_add_next (h : Heap) (nw hd x : Nat) :
    ((list_add h nw hd) x).next =
      if x = hd then nw else if x = nw then (h hd).next else (h x).next := by
  simp [list_add]

theorem list_add_prev (h : Heap) (nw hd x : Nat) :
    ((list_add h nw hd) x).prev =
      if x = nw then hd else if x = (h hd).next then nw else (h x).prev := by
  simp [list_add]

theorem list_add_tail_next (h : Heap) (nw hd x : Nat) :
    ((list_add_tail h nw hd) x).next =
      if x = (h hd).prev then nw else if x = nw then hd else (h x).next := by
  simp [list_add_tail]

theorem list_add_tail_prev (h : Heap) (nw hd x : Nat) :
    ((list_add_tail h nw hd) x).prev =
      if x = nw then (h hd).prev else if x = hd then nw else (h x).prev := by
  simp [list_add_tail]


theorem Node.ext' (a b : Node) (hn : a.next = b.next) (hp : a.prev = b.prev) : a = b := by
  cases a; cases b; simp_all

/-- Deleting the first element of a ring (the node after the start node)
with `list_del` unlinks exactly that element. -/
theorem ring_del_first (h : Heap) (s a : Nat) (rest : List Nat)
    (hr : IsRing h s (a :: rest)) (hnd : (s :: a :: rest).Nodup) :
    IsRing (list_del h a) s rest := by
  cases rest with
  | nil =>
    simp only [IsRing, LinkedNP] at hr ⊢
    obtain ⟨h1, h2, h3, h4⟩ := hr
    constructor
    · rw [list_del_next, h2, h3]
      simp
    · rw [list_del_prev, h3, h2]
      simp
  | cons b t =>
    simp only [IsRing, LinkedNP] at hr ⊢
    obtain ⟨hs, pa, ab, pb, hrest⟩ := hr
    have hnd' := hnd
    simp only [List.nodup_cons, List.mem_cons, not_or] at hnd'
    obtain ⟨⟨hsa, hsb, hst⟩, ⟨hab, hat⟩, hbt, _⟩ := hnd'
    refine ⟨?_, ?_, ?_⟩
    · rw [list_del_next, pa, ab]
      simp
    · rw [list_del_prev, ab, pa]
      simp
    · refine (linkedNP_congr (list_del h a) h b s t ?_ ?_ ?_).mpr hrest
      · rw [list_del_next, pa]
        simp [Ne.symm hsb]
      · intro x hx
        have hxs : x ≠ s := fun hh => hst (hh ▸ hx)
        have hxb : x ≠ b := fun hh => hbt (hh ▸ hx)
        refine Node.ext' _ _ ?_ ?_
        · rw [list_del_next, pa]
          simp [hxs]
        · rw [list_del_prev, ab]
          simp [hxb]
      · rw [list_del_prev, ab]
        simp [hsb]

/-- Inserting a fresh node right after the start node with `list_add`. -/
theorem ring_add (h : Heap) (s nw : Nat) (l : List Nat)
    (hr : IsRing h s l) (hnd : (s :: l).Nodup) (hfresh : nw ∉ s :: l) :
    IsRing (list_add h nw s) s (nw :: l) := by
  simp only [List.mem_cons, not_or] at hfresh
  obtain ⟨hnwS, hnl⟩ := hfresh
  cases l with
  | nil =>
    simp only [IsRing, LinkedNP] at hr ⊢
    obtain ⟨h1, h2⟩ := hr
    refine ⟨?_, ?_, ?_, ?_⟩
    · rw [list_add_next]; simp
    · rw [list_add_prev]; simp
    · rw [list_add_next, h1]
      simp [hnwS]
    · rw [list_add_prev, h1]
      simp [Ne.symm hnwS]
  | cons b t =>
    simp only [IsRing, LinkedNP] at hr ⊢
    obtain ⟨hs, pb, hrest⟩ := hr
    simp only [List.mem_cons, not_or] at hnl
    obtain ⟨hnwb, hnwt⟩ := hnl
    have hnd' := hnd
    simp only [List.nodup_cons, List.mem_cons, not_or] at hnd'
    obtain ⟨⟨hsb, hst⟩, hbt, _⟩ := hnd'
    refine ⟨?_, ?_, ?_, ?_, ?_⟩
    · rw [list_add_next]; simp
    · rw [list_add_prev]; simp
    · rw [list_add_next, hs]
      simp [hnwS]
    · rw [list_add_prev, hs]
      simp [Ne.symm hnwb]
    · refine (linkedNP_congr (list_add h nw s) h b s t ?_ ?_ ?_).mpr hrest
      · rw [list_add_next]
        simp [Ne.symm hsb, Ne.symm hnwb]
      · intro x hx
        have hxs : x ≠ s := fun hh => hst (hh ▸ hx)
        have hxnw : x ≠ nw := fun hh => hnwt (hh ▸ hx)
        have hxb : x ≠ b := fun hh => hbt (hh ▸ hx)
        refine Node.ext' _ _ ?_ ?_
        · rw [list_add_next]
          simp [hxs, hxnw]
        · rw [list_add_prev, hs]
          simp [hxb, hxnw]
      · rw [list_add_prev, hs]
        simp [Ne.symm hnwS, hsb]

/-- Inserting a fresh node right before the start node (at the tail of the
ring) with `list_add_tail`. -/
theorem ring_add_tail (h : Heap) (s nw : Nat) (l : List Nat)
    (hr : IsRing h s l) (hnd : (s :: l).Nodup) (hfresh : nw ∉ s :: l) :
    IsRing (list_add_tail h nw s) s (l ++ [nw]) := by
  simp only [List.mem_cons, not_or] at hfresh
  obtain ⟨hnwS, hnl⟩ := hfresh
  rcases List.eq_nil_or_concat l with rfl | ⟨l', p, rfl⟩
  · simp only [IsRing, LinkedNP] at hr ⊢
    obtain ⟨h1, h2⟩ := hr
    refine ⟨?_, ?_, ?_, ?_⟩
    · rw [list_add_tail_next, h2]
      simp
    · rw [list_add_tail_prev, h2]
      simp
    · rw [list_add_tail_next, h2]
      simp [hnwS]
    · rw [list_add_tail_prev]
      simp [Ne.symm hnwS]
  · simp only [List.concat_eq_append] at hr hnd hnl ⊢
    have hs_notin : s ∉ l' ++ [p] := (List.nodup_cons.mp hnd).1
    have hsp : s ≠ p := fun hh => hs_notin (by simp [hh])
    have hsl' : s ∉ l' := fun hh => hs_notin (List.mem_append_left _ hh)
    have hl : (l' ++ [p]).Nodup := (List.nodup_cons.mp hnd).2
    have hpl' : p ∉ l' := by
      intro hh
      have := List.disjoint_of_nodup_append hl
      exact this hh (by simp)
    have hnwp : nw ≠ p := fun hh => hnl (by simp [hh])
    have hnwl' : nw ∉ l' := fun hh => hnl (List.mem_append_left _ hh)
    unfold IsRing at hr ⊢
    rw [linkedNP_append] at hr
    obtain ⟨hchain, hp1, hp2⟩ := hr
    rw [List.append_assoc]
    have : [p] ++ [nw] = p :: [nw] := rfl
    rw [this, linkedNP_append]
    constructor
    · refine (linkedNP_congr (list_add_tail h nw s) h s p l' ?_ ?_ ?_).mpr hchain
      · rw [list_add_tail_next, hp2]
        simp [hsp, Ne.symm hnwS]
      · intro x hx
        have hxp : x ≠ p := fun hh => hpl' (hh ▸ hx)
        have hxnw : x ≠ nw := fun hh => hnwl' (hh ▸ hx)
        have hxs : x ≠ s := fun hh => hsl' (hh ▸ hx)
        refine Node.ext' _ _ ?_ ?_
        · rw [list_add_tail_next, hp2]
          simp [hxp, hxnw]
        · rw [list_add_tail_prev]
          simp [hxs, hxnw]
      · rw [list_add_tail_prev]
        simp [hnwp.symm, Ne.symm hsp]
    · refine ⟨?_, ?_, ?_, ?_⟩
      · rw [list_add_tail_next, hp2]
        simp
      · rw [list_add_tail_prev, hp2]
        simp
      · rw [list_add_tail_next, hp2]
        simp [hnwS, hnwp]
      · rw [list_add_tail_prev]
        simp [Ne.symm hnwS]

/-- Rotating the cycle list of a ring is a permutation. -/
theorem perm_rotate (x y : Nat) (u v : List Nat) :
    (x :: (u ++ y :: v)).Perm (y :: (v ++ x :: u)) :=
  (List.perm_middle.cons x).trans
    ((List.Perm.swap y x (u ++ v)).trans
      (((List.perm_append_comm.cons x).cons y).trans
        ((List.perm_middle.symm).cons y)))

theorem nodup_rotate (x y : Nat) (u v : List Nat) :
    (x :: (u ++ y :: v)).Nodup ↔ (y :: (v ++ x :: u)).Nodup :=
  (perm_rotate x y u v).nodup_iff

/-- Deleting an element at an arbitrary position of a ring. -/
theorem ring_del_mid (h : Heap) (hd a : Nat) (l1 l2 : List Nat)
    (hr : IsRing h hd (l1 ++ a :: l2)) (hnd : (hd :: (l1 ++ a :: l2)).Nodup) :
    IsRing (list_del h a) hd (l1 ++ l2) := by
  rcases List.eq_nil_or_concat l1 with rfl | ⟨l1', p, rfl⟩
  · exact ring_del_first h hd a l2 hr hnd
  · simp only [List.concat_eq_append] at hr hnd ⊢
    have hshape : (l1' ++ [p]) ++ a :: l2 = l1' ++ p :: (a :: l2) := by
      simp [List.append_assoc]
    rw [hshape] at hr hnd
    have hrot : IsRing h p ((a :: l2) ++ hd :: l1') :=
      (isRing_rotate h hd p l1' (a :: l2)).mp hr
    have hndrot : (p :: ((a :: l2) ++ hd :: l1')).Nodup :=
      (nodup_rotate hd p l1' (a :: l2)).mp hnd
    have hdel : IsRing (list_del h a) p (l2 ++ hd :: l1') :=
      ring_del_first h p a (l2 ++ hd :: l1') hrot hndrot
    have hback : IsRing (list_del h a) hd (l1' ++ p :: l2) :=
      (isRing_rotate (list_del h a) p hd l2 l1').mp hdel
    have hshape2 : (l1' ++ [p]) ++ l2 = l1' ++ p :: l2 := by
      simp [List.append_assoc]
    rw [hshape2]
    exact hback

/-- Inserting a fresh node immediately before an arbitrary ring element `t`
with `list_add_tail`. -/
theorem ring_add_tail_mid (h : Heap) (hd t nw : Nat) (l1 l2 : List Nat)
    (hr : IsRing h hd (l1 ++ t :: l2)) (hnd : (hd :: (l1 ++ t :: l2)).Nodup)
    (hfresh : nw ∉ hd :: (l1 ++ t :: l2)) :
    IsRing (list_add_tail h nw t) hd (l1 ++ nw :: t :: l2) := by
  have hrot : IsRing h t (l2 ++ hd :: l1) :=
    (isRing_rotate h hd t l1 l2).mp hr
  have hndrot : (t :: (l2 ++ hd :: l1)).Nodup :=
    (nodup_rotate hd t l1 l2).mp hnd
  have hfrot : nw ∉ t :: (l2 ++ hd :: l1) := fun hmem =>
    hfresh ((perm_rotate hd t l1 l2).mem_iff.mpr hmem)
  have hadd : IsRing (list_add_tail h nw t) t ((l2 ++ hd :: l1) ++ [nw]) :=
    ring_add_tail h t nw (l2 ++ hd :: l1) hrot hndrot hfrot
  have hshape : (l2 ++ hd :: l1) ++ [nw] = l2 ++ hd :: (l1 ++ [nw]) := by
    simp [List.append_assoc]
  rw [hshape] at hadd
  have hback : IsRing (list_add_tail h nw t) hd ((l1 ++ [nw]) ++ t :: l2) :=
    (isRing_rotate (list_add_tail h nw t) t hd l2 (l1 ++ [nw])).mp hadd
  have hshape2 : (l1 ++ [nw]) ++ t :: l2 = l1 ++ nw :: t :: l2 := by
    simp [List.append_assoc]
  rw [hshape2] at hback
  exact hback

/-- Moving an existing ring element `a` to just before its predecessor `t`:
the heap effect of `list_move_tail(a, t)` from the source's `q_swap`. -/
theorem ring_move_tail (h : Heap) (hd t a : Nat) (l1 l2 : List Nat)
    (hr : IsRing h hd (l1 ++ t :: a :: l2)) (hnd : (hd :: (l1 ++ t :: a :: l2)).Nodup) :
    IsRing (list_move_tail h a t) hd (l1 ++ a :: t :: l2) := by
  have hshape : l1 ++ t :: a :: l2 = (l1 ++ [t]) ++ a :: l2 := by
    simp [List.append_assoc]
  rw [hshape] at hr hnd
  have hdel : IsRing (list_del h a) hd ((l1 ++ [t]) ++ l2) :=
    ring_del_mid h hd a (l1 ++ [t]) l2 hr hnd
  have hshape2 : (l1 ++ [t]) ++ l2 = l1 ++ t :: l2 := by
    simp [List.append_assoc]
  rw [hshape2] at hdel
  have hp : (hd :: ((l1 ++ [t]) ++ a :: l2)).Perm (a :: (hd :: ((l1 ++ [t]) ++ l2))) :=
    (List.perm_middle.cons hd).trans (List.Perm.swap a hd _)
  rw [hshape2] at hp
  have hnda : (a :: (hd :: (l1 ++ t :: l2))).Nodup := (hp.nodup_iff).mp hnd
  have hnd2 : (hd :: (l1 ++ t :: l2)).Nodup := hnda.of_cons
  have hfresh2 : a ∉ hd :: (l1 ++ t :: l2) := (List.nodup_cons.mp hnda).1
  exact ring_add_tail_mid (list_del h a) hd t a l1 l2 hdel hnd2 hfresh2

@[simp] theorem hupd_self (h : Heap) (a : Nat) : hupd h a (h a) = h := by
  funext x
  unfold hupd
  split <;> simp_all

/-- Exchange the two pointers of a node (the loop body of `q_reverse`). -/
def flipNode (n : Node) : Node := ⟨n.prev, n.next⟩

/-- Flip the nodes at the listed addresses, in order. -/
def flipAll (h : Heap) (c : List Nat) : Heap :=
  c.foldl (fun hh a => hupd hh a (flipNode (hh a))) h

/-- Flip every node of the heap (specification-side device for reasoning
about `flipAll` on the ring members). -/
def flipH (h : Heap) : Heap := fun a => flipNode (h a)

theorem flipAll_not_mem (h : Heap) (c : List Nat) (x : Nat) (hx : x ∉ c) :
    flipAll h c x = h x := by
  induction c generalizing h with
  | nil => rfl
  | cons a c' ih =>
    have hxa : x ≠ a := fun hh => hx (hh ▸ List.mem_cons_self a c')
    have hxc : x ∉ c' := fun hh => hx (List.mem_cons_of_mem _ hh)
    simp only [flipAll, List.foldl_cons]
    rw [show (List.foldl (fun hh a => hupd hh a (flipNode (hh a)))
      (hupd h a (flipNode (h a))) c') = flipAll (hupd h a (flipNode (h a))) c' from rfl]
    rw [ih _ hxc, hupd_other _ _ _ _ hxa]

theorem flipAll_mem (h : Heap) (c : List Nat) (x : Nat) (hx : x ∈ c) (hnd : c.Nodup) :
    flipAll h c x = flipNode (h x) := by
  induction c generalizing h with
  | nil => cases hx
  | cons a c' ih =>
    simp only [flipAll, List.foldl_cons]
    rw [show (List.foldl (fun hh a => hupd hh a (flipNode (hh a)))
      (hupd h a (flipNode (h a))) c') = flipAll (hupd h a (flipNode (h a))) c' from rfl]
    rcases List.mem_cons.mp hx with rfl | hxc'
    · have hxnotc' : x ∉ c' := (List.nodup_cons.mp hnd).1
      rw [flipAll_not_mem _ _ _ hxnotc']
      simp
    · have hxa : x ≠ a := by
        intro hh
        exact (List.nodup_cons.mp hnd).1 (hh ▸ hxc')
      rw [ih _ hxc' (List.nodup_cons.mp hnd).2, hupd_other _ _ _ _ hxa]

theorem linkedNP_flip (h : Heap) : ∀ (l : List Nat) (a z : Nat),
    LinkedNP h a l z → LinkedNP (flipH h) z l.reverse a := by
  intro l
  induction l with
  | nil =>
    intro a z hl
    obtain ⟨h1, h2⟩ := hl
    exact ⟨by simp [flipH, flipNode, h2], by simp [flipH, flipNode, h1]⟩
  | cons b t ih =>
    intro a z hl
    obtain ⟨nab, pba, rest⟩ := hl
    rw [List.reverse_cons, show (t.reverse ++ [b] : List Nat) = t.reverse ++ b :: [] from rfl,
      linkedNP_append]
    exact ⟨ih b z rest,
      by simp [LinkedNP, flipH, flipNode, pba, nab]⟩

/-- The global pointer flip of a ring is the ring of the reversed element
list. -/
theorem ring_flip (h : Heap) (hd : Nat) (addrs : List Nat) (hr : IsRing h hd addrs) :
    IsRing (flipH h) hd addrs.reverse :=
  linkedNP_flip h addrs hd hd hr

theorem flipAll_ring (h : Heap) (hd : Nat) (addrs : List Nat)
    (hr : IsRing h hd addrs) (hnd : (hd :: addrs).Nodup) :
    IsRing (flipAll h (hd :: addrs)) hd addrs.reverse := by
  refine (linkedNP_congr (flipAll h (hd :: addrs)) (flipH h) hd hd addrs.reverse ?_ ?_ ?_).mpr
    (ring_flip h hd addrs hr)
  · rw [flipAll_mem h _ hd (List.mem_cons_self _ _) hnd]
    rfl
  · intro x hx
    have hx' : x ∈ hd :: addrs := List.mem_cons_of_mem _ (List.mem_reverse.mp hx)
    rw [flipAll_mem h _ x hx' hnd]
    rfl
  · rw [flipAll_mem h _ hd (List.mem_cons_self _ _) hnd]
    rfl

theorem linkedNP_nextChain (h : Heap) : ∀ (l : List Nat) (a z : Nat),
    LinkedNP h a l z → NextChain h a l z := by
  intro l
  induction l with
  | nil => intro a z hl; exact hl.1
  | cons b t ih => intro a z hl; exact ⟨hl.1, ih b z hl.2.2⟩

theorem nextChain_congr (h1 h2 : Heap) : ∀ (l : List Nat) (a z : Nat),
    (∀ y ∈ a :: l, (h1 y).next = (h2 y).next) →
    (NextChain h1 a l z ↔ NextChain h2 a l z) := by
  intro l
  induction l with
  | nil => intro a z hm; simp [NextChain, hm a (List.mem_cons_self _ _)]
  | cons b t ih =>
    intro a z hm
    simp only [NextChain, hm a (List.mem_cons_self _ _)]
    rw [ih b z (fun y hy => hm y (List.mem_cons_of_mem _ hy))]

/-- The do-while loop of `q_reverse` (queue.c lines 268-274): save the old
`next` in `buff`, exchange the node's two pointers, advance to `buff`, and
stop once the walk is back at the sentinel.  `fuel` bounds the number of
iterations (in C the loop terminates because the walk follows the original
ring exactly once). -/
def reverseLoop (h : Heap) (node hd : Nat) : Nat → Heap
  | 0 => h
  | fuel + 1 =>
    let buff := (h node).next
    let h' := hupd h node ⟨(h node).prev, buff⟩
    if buff = hd then h' else reverseLoop h' buff hd fuel

/-- Model of `q_reverse` (queue.c lines 262-275): no effect on empty or
singular lists, otherwise walk the ring once exchanging every node's
`next`/`prev` (the `head == NULL` case is handled by the nullable wrapper of
the state machine below). -/
def q_reverse (h : Heap) (hd : Nat) (fuel : Nat) : Heap :=
  if list_empty h hd || list_is_singular h hd then h
  else reverseLoop h hd hd fuel

theorem reverseLoop_spec (hd : Nat) : ∀ (l : List Nat) (h : Heap) (x fuel : Nat),
    NextChain h x l hd → (x :: l).Nodup → hd ∉ l → l.length < fuel →
    reverseLoop h x hd fuel = flipAll h (x :: l) := by
  intro l
  induction l with
  | nil =>
    intro h x fuel hch hnd hhd hfuel
    match fuel with
    | f + 1 =>
      have hnext : (h x).next = hd := hch
      simp [reverseLoop, hnext, flipAll, flipNode]
  | cons b t ih =>
    intro h x fuel hch hnd hhd hfuel
    obtain ⟨hxb, hch'⟩ := hch
    have hbhd : b ≠ hd := fun hh => hhd (hh ▸ List.mem_cons_self b t)
    match fuel with
    | f + 1 =>
      simp only [reverseLoop, hxb, if_neg hbhd]
      have hxnot : x ∉ b :: t := (List.nodup_cons.mp hnd).1
      have hch2 : NextChain (hupd h x ⟨(h x).prev, b⟩) b t hd := by
        refine (nextChain_congr _ h t b hd ?_).mpr hch'
        intro y hy
        rw [hupd_other]
        intro hh
        exact hxnot (hh ▸ hy)
      have := ih (hupd h x ⟨(h x).prev, b⟩) b f hch2 (List.nodup_cons.mp hnd).2
        (fun hh => hhd (List.mem_cons_of_mem _ hh)) (by simp at hfuel ⊢; omega)
      rw [this]
      simp [flipAll, flipNode, hxb]

/-- Under the ring invariant, `q_reverse` is exactly the pointwise pointer
flip of every ring node (including the sentinel). -/
theorem q_reverse_eq_flipAll (h : Heap) (hd : Nat) (addrs : List Nat) (fuel : Nat)
    (hr : IsRing h hd addrs) (hnd : (hd :: addrs).Nodup) (hfuel : addrs.length < fuel) :
    q_reverse h hd fuel = flipAll h (hd :: addrs) := by
  unfold q_reverse
  by_cases hg : (list_empty h hd || list_is_singular h hd) = true
  · rw [if_pos hg]
    match addrs with
    | [] =>
      obtain ⟨h1, h2⟩ := hr
      have : flipNode (h hd) = h hd := by
        refine Node.ext' _ _ ?_ ?_ <;> simp [flipNode, h1, h2]
      show h = flipAll h [hd]
      simp [flipAll, this]
    | [a] =>
      obtain ⟨h1, h2, h3, h4⟩ := hr
      have hhd : flipNode (h hd) = h hd := by
        refine Node.ext' _ _ ?_ ?_ <;> simp [flipNode, h1, h4]
      have ha : flipNode (h a) = h a := by
        refine Node.ext' _ _ ?_ ?_ <;> simp [flipNode, h2, h3]
      show h = flipAll h [hd, a]
      simp [flipAll, hhd, ha]
    | a :: b :: t =>
      exfalso
      obtain ⟨h1, h2, h3, h4, _⟩ := hr
      have hnd' := hnd
      simp only [List.nodup_cons, List.mem_cons, not_or] at hnd'
      have hhda : hd ≠ a := hnd'.1.1
      have hhdb : hd ≠ b := hnd'.1.2.1
      simp only [list_empty, list_is_singular, h1, Bool.or_eq_true, beq_iff_eq,
        Bool.and_eq_true, Bool.not_eq_true', h3] at hg
      rcases hg with hg | hg
      · exact hhda hg.symm
      · exact hhdb hg.2.symm
  · rw [if_neg hg]
    exact reverseLoop_spec hd addrs h hd fuel
      (linkedNP_nextChain h addrs hd hd hr) hnd
      (fun hh => (List.nodup_cons.mp hnd).1 hh) hfuel

theorem flipNode_flipNode (n : Node) : flipNode (flipNode n) = n := by
  cases n; rfl

theorem q_reverse_ring (h : Heap) (hd : Nat) (addrs : List Nat) (fuel : Nat)
    (hr : IsRing h hd addrs) (hnd : (hd :: addrs).Nodup) (hfuel : addrs.length < fuel) :
    IsRing (q_reverse h hd fuel) hd addrs.reverse := by
  rw [q_reverse_eq_flipAll h hd addrs fuel hr hnd hfuel]
  exact flipAll_ring h hd addrs hr hnd

theorem q_reverse_involution (h : Heap) (hd : Nat) (addrs : List Nat) (fuel : Nat)
    (hr : IsRing h hd addrs) (hnd : (hd :: addrs).Nodup) (hfuel : addrs.length < fuel) :
    q_reverse (q_reverse h hd fuel) hd fuel = h := by
  have hnd' : (hd :: addrs.reverse).Nodup :=
    (((List.reverse_perm addrs).symm.cons hd).nodup_iff).mp hnd
  rw [q_reverse_eq_flipAll h hd addrs fuel hr hnd hfuel,
    q_reverse_eq_flipAll _ hd addrs.reverse fuel
      (flipAll_ring h hd addrs hr hnd) hnd' (by simpa using hfuel)]
  funext x
  by_cases hx : x ∈ hd :: addrs
  · have hx' : x ∈ hd :: addrs.reverse := by
      rcases List.mem_cons.mp hx with rfl | hxa
      · exact List.mem_cons_self _ _
      · exact List.mem_cons_of_mem _ (List.mem_reverse.mpr hxa)
    rw [flipAll_mem _ _ _ hx' hnd', flipAll_mem _ _ _ hx hnd, flipNode_flipNode]
  · have hx' : x ∉ hd :: addrs.reverse := by
      intro hmem
      rcases List.mem_cons.mp hmem with rfl | hxa
      · exact hx (List.mem_cons_self _ _)
      · exact hx (List.mem_cons_of_mem _ (List.mem_reverse.mp hxa))
    rw [flipAll_not_mem _ _ _ hx', flipAll_not_mem _ _ _ hx]

/-- Under the ring invariant the combined guard `list_empty(head) ||
list_is_singular(head)` used by the transform operations holds exactly on
lists of at most one element. -/
theorem ring_guard_iff (h : Heap) (hd : Nat) (addrs : List Nat)
    (hr : IsRing h hd addrs) (hnd : (hd :: addrs).Nodup) :
    ((list_empty h hd || list_is_singular h hd) = true) ↔ addrs.length ≤ 1 := by
  match addrs with
  | [] =>
    obtain ⟨h1, _⟩ := hr
    simp [list_empty, list_is_singular, h1]
  | [a] =>
    obtain ⟨h1, h2, h3, h4⟩ := hr
    have hha : hd ≠ a := by
      simp only [List.nodup_cons, List.mem_cons, not_or] at hnd
      exact hnd.1.1
    simp [list_empty, list_is_singular, h1, h3, hha, Ne.symm hha]
  | a :: b :: t =>
    obtain ⟨h1, h2, h3, h4, _⟩ := hr
    have hnd' := hnd
    simp only [List.nodup_cons, List.mem_cons, not_or] at hnd'
    have hhda : hd ≠ a := hnd'.1.1
    have hhdb : hd ≠ b := hnd'.1.2.1
    simp [list_empty, list_is_singular, h1, h3, Ne.symm hhda, Ne.symm hhdb]

/-- Pairwise-swapped list: what `q_swap` does to the element order. -/
def swapPairs : List α → List α
  | x :: y :: r => y :: x :: swapPairs r
  | l => l

theorem swapPairs_perm : ∀ l : List α, (swapPairs l).Perm l := by
  have H : ∀ n (l : List α), l.length ≤ n → (swapPairs l).Perm l := by
    intro n
    induction n with
    | zero =>
      intro l hl
      have : l = [] := List.length_eq_zero.mp (Nat.le_zero.mp hl)
      subst this
      simp [swapPairs]
    | succ n ih =>
      intro l hl
      match l with
      | [] => simp [swapPairs]
      | [x] => simp [swapPairs]
      | x :: y :: r =>
        have hr : (swapPairs r).Perm r := by
          refine ih r ?_
          simp only [List.length_cons] at hl
          omega
        show (y :: x :: swapPairs r).Perm (x :: y :: r)
        exact ((hr.cons x).cons y).trans (List.Perm.swap x y r)
  exact fun l => H l.length l le_rfl

theorem swapPairs_short (l : List α) (hl : l.length ≤ 1) : swapPairs l = l := by
  match l with
  | [] => rfl
  | [x] => rfl

/-- The for-loop of `q_swap` (queue.c lines 250-252): starting at
`head->next`, while the current node and its successor are both real
elements, move the successor in front of the current node
(`list_move_tail(node->next, node)`) and advance past the moved pair.
`fuel` bounds the iteration count. -/
def swapLoop (h : Heap) (node hd : Nat) : Nat → Heap
  | 0 => h
  | fuel + 1 =>
    if node ≠ hd ∧ (h node).next ≠ hd then
      swapLoop (list_move_tail h ((h node).next) node)
        ((list_move_tail h ((h node).next) node node).next) hd fuel
    else h

/-- Model of `q_swap` (queue.c lines 244-253): no effect on empty or
singular lists, otherwise run the pairwise swap loop (the `head == NULL`
case is handled by the nullable wrapper of the state machine below). -/
def q_swap (h : Heap) (hd : Nat) (fuel : Nat) : Heap :=
  if list_empty h hd || list_is_singular h hd then h
  else swapLoop h ((h hd).next) hd fuel

theorem swapLoop_at_hd (h : Heap) (hd : Nat) (fuel : Nat) : swapLoop h hd hd fuel = h := by
  cases fuel <;> simp [swapLoop]

theorem swapLoop_spec (hd : Nat) : ∀ (fuel : Nat) (rest done : List Nat) (h : Heap) (x : Nat),
    IsRing h hd (done ++ x :: rest) → (hd :: (done ++ x :: rest)).Nodup →
    rest.length < fuel →
    IsRing (swapLoop h x hd fuel) hd (done ++ swapPairs (x :: rest)) := by
  intro fuel
  induction fuel with
  | zero => intro rest done h x _ _ hf; omega
  | succ f ih =>
    intro rest done h x hr hnd hf
    have hhd_notin : hd ∉ done ++ x :: rest := (List.nodup_cons.mp hnd).1
    have hxhd : x ≠ hd := by
      intro hh
      exact hhd_notin (by simp [hh.symm])
    match rest with
    | [] =>
      have hnext : (h x).next = hd :=
        ((linkedNP_append h hd x hd done []).mp hr).2.1
      simp only [swapLoop]
      rw [if_neg (by simp [hnext])]
      simpa [swapPairs] using hr
    | y :: rest2 =>
      have hdec := (linkedNP_append h hd x hd done (y :: rest2)).mp hr
      have hnext : (h x).next = y := hdec.2.1
      have hyhd : y ≠ hd := by
        intro hh
        exact hhd_notin (by simp [hh.symm])
      have hring' : IsRing (list_move_tail h y x) hd (done ++ y :: x :: rest2) :=
        ring_move_tail h hd x y done rest2 hr hnd
      have hnd' : (hd :: (done ++ y :: x :: rest2)).Nodup := by
        have hp : (hd :: (done ++ x :: y :: rest2)).Perm (hd :: (done ++ y :: x :: rest2)) := by
          have := List.Perm.append_left (hd :: done) (List.Perm.swap y x rest2)
          simpa using this
        exact hp.nodup_iff.mp hnd
      simp only [swapLoop]
      rw [if_pos ⟨hxhd, by rw [hnext]; exact hyhd⟩, hnext]
      have hshape : done ++ y :: x :: rest2 = (done ++ [y]) ++ x :: rest2 := by
        simp
      match rest2 with
      | [] =>
        have hnext' : ((list_move_tail h y x) x).next = hd := by
          have := (linkedNP_append (list_move_tail h y x) hd x hd (done ++ [y]) []).mp
            (by rw [hshape] at hring'; exact hring')
          exact this.2.1
        rw [hnext', swapLoop_at_hd]
        simpa [swapPairs] using hring'
      | z :: rest3 =>
        have hnext' : ((list_move_tail h y x) x).next = z := by
          have := (linkedNP_append (list_move_tail h y x) hd x hd (done ++ [y]) (z :: rest3)).mp
            (by rw [hshape] at hring'; exact hring')
          exact this.2.1
        rw [hnext']
        have hshape2 : done ++ y :: x :: z :: rest3 = (done ++ [y, x]) ++ z :: rest3 := by
          simp
        have hr2 : IsRing (list_move_tail h y x) hd ((done ++ [y, x]) ++ z :: rest3) := by
          rw [← hshape2]; exact hring'
        have hnd2 : (hd :: ((done ++ [y, x]) ++ z :: rest3)).Nodup := by
          rw [← hshape2]; exact hnd'
        have hf2 : rest3.length < f := by
          simp only [List.length_cons] at hf
          omega
        have := ih rest3 (done ++ [y, x]) (list_move_tail h y x) z hr2 hnd2 hf2
        rw [show (done ++ [y, x]) ++ swapPairs (z :: rest3) =
          done ++ swapPairs (x :: y :: z :: rest3) from by simp [swapPairs]] at this
        exact this

/-- Cyclic position access on the cycle list of a ring (position counted
from the sentinel). -/
def cget (c : List Nat) (i : Nat) : Nat := c.getD (i % c.length) 0

theorem mod_succ_of_lt {i m : Nat} (h : i % m + 1 < m) : (i + 1) % m = i % m + 1 := by
  rw [Nat.add_mod]
  have h1 : 1 % m = 1 := Nat.mod_eq_of_lt (by omega)
  rw [h1, Nat.mod_eq_of_lt h]

theorem mod_succ_of_eq {i m : Nat} (hm : 0 < m) (h : i % m + 1 = m) : (i + 1) % m = 0 := by
  rw [Nat.add_mod]
  by_cases hm1 : m = 1
  · subst hm1; omega
  · have h1 : 1 % m = 1 := Nat.mod_eq_of_lt (by omega)
    rw [h1, h]
    simp

theorem linkedNP_next_at (h : Heap) : ∀ (l : List Nat) (a z : Nat), LinkedNP h a l z →
    ∀ j, j < (a :: l).length → (h ((a :: l).getD j 0)).next = (a :: l).getD (j + 1) z := by
  intro l
  induction l with
  | nil =>
    intro a z hl j hj
    simp only [List.length_cons, List.length_nil] at hj
    have hj0 : j = 0 := by omega
    subst hj0
    exact hl.1
  | cons b t ih =>
    intro a z hl j hj
    match j with
    | 0 => exact hl.1
    | j' + 1 =>
      have := ih b z hl.2.2 j' (by simpa using hj)
      simpa using this

theorem cget_zero (hd : Nat) (addrs : List Nat) : cget (hd :: addrs) 0 = hd := by
  simp [cget]

theorem ring_next_cget (h : Heap) (hd : Nat) (addrs : List Nat)
    (hr : IsRing h hd addrs) (i : Nat) :
    (h (cget (hd :: addrs) i)).next = cget (hd :: addrs) (i + 1) := by
  have hm : 0 < (hd :: addrs).length := by simp
  have hj : i % (hd :: addrs).length < (hd :: addrs).length := Nat.mod_lt _ hm
  have hstep := linkedNP_next_at h addrs hd hd hr (i % (hd :: addrs).length) hj
  unfold cget
  rw [hstep]
  by_cases hend : i % (hd :: addrs).length + 1 < (hd :: addrs).length
  · rw [List.getD_eq_getElem _ _ hend, mod_succ_of_lt hend,
      List.getD_eq_getElem _ _ hend]
  · have heq : i % (hd :: addrs).length + 1 = (hd :: addrs).length := by omega
    rw [List.getD_eq_default _ _ (le_of_eq heq.symm), mod_succ_of_eq hm heq]
    simp

theorem cget_inj (c : List Nat) (hnd : c.Nodup) (hc : 0 < c.length) (i j : Nat)
    (hij : cget c i = cget c j) : i % c.length = j % c.length := by
  have hi : i % c.length < c.length := Nat.mod_lt _ hc
  have hj : j % c.length < c.length := Nat.mod_lt _ hc
  unfold cget at hij
  rw [List.getD_eq_getElem _ _ hi, List.getD_eq_getElem _ _ hj] at hij
  exact (hnd.getElem_inj_iff).mp hij

/-- The fast/slow pointer loop of `q_delete_mid` (queue.c lines 210-215):
while `fast` has reached neither the sentinel nor `head->next`, advance
`slow` one node and `fast` two.  Returns the final `slow`. -/
def midLoop (h : Heap) (slow fast hd : Nat) : Nat → Nat
  | 0 => slow
  | fuel + 1 =>
    if fast ≠ hd ∧ fast ≠ (h hd).next then
      midLoop h ((h slow).next) ((h ((h fast).next)).next) hd fuel
    else slow

/-- Model of `q_delete_mid` (queue.c lines 197-224): no effect (returns
`false`) on empty or singular lists; otherwise run the fast/slow walk from
`head->next`, unlink the node `slow` and release its element (the returned
address is the released element, freed with `q_release_element`, i.e. its
string and then its record).  The `head == NULL` case is handled by the
nullable wrapper of the state machine below. -/
def q_delete_mid (h : Heap) (hd : Nat) (fuel : Nat) : Heap × Option Nat × Bool :=
  if list_empty h hd || list_is_singular h hd then (h, none, false)
  else
    (list_del h (midLoop h ((h hd).next) ((h ((h hd).next)).next) hd fuel),
     some (midLoop h ((h hd).next) ((h ((h hd).next)).next) hd fuel),
     true)

theorem ring_next_one (h : Heap) (hd : Nat) (addrs : List Nat) (hr : IsRing h hd addrs) :
    (h hd).next = cget (hd :: addrs) 1 := by
  have := ring_next_cget h hd addrs hr 0
  rwa [cget_zero] at this

theorem midLoop_spec (h : Heap) (hd : Nat) (addrs : List Nat)
    (hr : IsRing h hd addrs) (hnd : (hd :: addrs).Nodup) :
    ∀ (r k fuel : Nat), r ≤ fuel →
    (∀ t, t < r → (2 + 2 * (k + t)) % (hd :: addrs).length ≠ 0 ∧
      (2 + 2 * (k + t)) % (hd :: addrs).length ≠ 1) →
    ((2 + 2 * (k + r)) % (hd :: addrs).length = 0 ∨
      (2 + 2 * (k + r)) % (hd :: addrs).length = 1) →
    midLoop h (cget (hd :: addrs) (1 + k)) (cget (hd :: addrs) (2 + 2 * k)) hd fuel
      = cget (hd :: addrs) (1 + k + r) := by
  intro r
  induction r with
  | zero =>
    intro k fuel _ _ hstop
    have hm : 0 < (hd :: addrs).length := by simp
    simp only [Nat.add_zero] at hstop
    have hfast : cget (hd :: addrs) (2 + 2 * k) = hd ∨
        cget (hd :: addrs) (2 + 2 * k) = (h hd).next := by
      rcases hstop with hs | hs
      · left
        unfold cget
        rw [hs]
        simp
      · right
        rw [ring_next_one h hd addrs hr]
        unfold cget
        rw [hs]
        by_cases hm1 : 1 < (hd :: addrs).length
        · rw [Nat.mod_eq_of_lt hm1]
        · exfalso
          have hlen1 : (hd :: addrs).length = 1 := by omega
          rw [hlen1, Nat.mod_one] at hs
          omega
    match fuel with
    | 0 => rfl
    | f + 1 =>
      have hcond : ¬(cget (hd :: addrs) (2 + 2 * k) ≠ hd ∧
          cget (hd :: addrs) (2 + 2 * k) ≠ (h hd).next) := by
        simp only [not_and_or, not_not]
        tauto
      simp only [midLoop]
      rw [if_neg hcond]
      rfl
  | succ r ih =>
    intro k fuel hrf hrun hstop
    have hm : 0 < (hd :: addrs).length := by simp
    match fuel with
    | f + 1 =>
      have hrun0 := hrun 0 (by omega)
      simp only [Nat.add_zero] at hrun0
      have hfast_ne_hd : cget (hd :: addrs) (2 + 2 * k) ≠ hd := by
        intro hh
        rw [← cget_zero hd addrs] at hh
        have hinj := cget_inj _ hnd hm _ _ hh
        rw [Nat.zero_mod] at hinj
        exact hrun0.1 hinj
      have hfast_ne_next : cget (hd :: addrs) (2 + 2 * k) ≠ (h hd).next := by
        intro hh
        rw [ring_next_one h hd addrs hr] at hh
        have hinj := cget_inj _ hnd hm _ _ hh
        by_cases hm1 : 1 < (hd :: addrs).length
        · rw [Nat.mod_eq_of_lt hm1] at hinj
          exact hrun0.2 hinj
        · have hlen1 : (hd :: addrs).length = 1 := by omega
          exact hrun0.1 (by rw [hlen1]; omega)
      simp only [midLoop]
      rw [if_pos ⟨hfast_ne_hd, hfast_ne_next⟩]
      rw [ring_next_cget h hd addrs hr (1 + k),
        ring_next_cget h hd addrs hr (2 + 2 * k),
        ring_next_cget h hd addrs hr (2 + 2 * k + 1)]
      have e1 : 1 + k + 1 = 1 + (k + 1) := by ring
      have e2 : 2 + 2 * k + 1 + 1 = 2 + 2 * (k + 1) := by ring
      rw [e1, e2]
      have := ih (k + 1) f (by omega)
        (fun t ht => by
          have h2 := hrun (t + 1) (by omega)
          rwa [show k + (t + 1) = k + 1 + t from by ring] at h2)
        (by rw [show k + 1 + r = k + (r + 1) from by ring]; exact hstop)
      rw [this, show 1 + (k + 1) + r = 1 + k + (r + 1) from by ring]

theorem cget_small (hd : Nat) (addrs : List Nat) (i : Nat) (hi : i < (hd :: addrs).length) :
    cget (hd :: addrs) i = (hd :: addrs).getD i 0 := by
  unfold cget
  rw [Nat.mod_eq_of_lt hi]

/-- The fast/slow walk stops with `slow` on the element at 0-based index
`⌊n/2⌋`. -/
theorem midLoop_result (h : Heap) (hd : Nat) (addrs : List Nat) (fuel : Nat)
    (hr : IsRing h hd addrs) (hnd : (hd :: addrs).Nodup) (h2 : 2 ≤ addrs.length)
    (hfuel : addrs.length / 2 ≤ fuel) :
    midLoop h ((h hd).next) ((h ((h hd).next)).next) hd fuel
      = addrs.getD (addrs.length / 2) 0 := by
  have hm : (hd :: addrs).length = addrs.length + 1 := by simp
  have hc1 : (h hd).next = cget (hd :: addrs) 1 := ring_next_one h hd addrs hr
  have hc2 : (h ((h hd).next)).next = cget (hd :: addrs) 2 := by
    rw [hc1, ring_next_cget h hd addrs hr 1]
  rw [hc2, hc1]
  have hrun : ∀ t, t < addrs.length / 2 →
      (2 + 2 * (0 + t)) % (hd :: addrs).length ≠ 0 ∧
      (2 + 2 * (0 + t)) % (hd :: addrs).length ≠ 1 := by
    intro t ht
    have hlt : 2 + 2 * (0 + t) < (hd :: addrs).length := by rw [hm]; omega
    rw [Nat.mod_eq_of_lt hlt]
    omega
  have hstop : (2 + 2 * (0 + addrs.length / 2)) % (hd :: addrs).length = 0 ∨
      (2 + 2 * (0 + addrs.length / 2)) % (hd :: addrs).length = 1 := by
    rcases Nat.even_or_odd addrs.length with ⟨a, ha⟩ | ⟨a, ha⟩
    · right
      rw [show 2 + 2 * (0 + addrs.length / 2) = (hd :: addrs).length + 1 from by
        rw [hm]; omega]
      rw [Nat.add_mod_left]
      exact Nat.mod_eq_of_lt (by rw [hm]; omega)
    · left
      rw [show 2 + 2 * (0 + addrs.length / 2) = (hd :: addrs).length from by
        rw [hm]; omega]
      exact Nat.mod_self _
  have hmain := midLoop_spec h hd addrs hr hnd (addrs.length / 2) 0 fuel hfuel hrun hstop
  rw [show (1 + 0 : Nat) = 1 from rfl, show (2 + 2 * 0 : Nat) = 2 from rfl] at hmain
  rw [hmain]
  have hlt : 1 + 0 + addrs.length / 2 < (hd :: addrs).length := by rw [hm]; omega
  rw [cget_small _ _ _ hlt,
    show 1 + 0 + addrs.length / 2 = addrs.length / 2 + 1 from by ring,
    List.getD_cons_succ]

/-- On empty and singular lists `q_delete_mid` is a no-op returning
`false`. -/
theorem q_delete_mid_short (h : Heap) (hd : Nat) (addrs : List Nat) (fuel : Nat)
    (hr : IsRing h hd addrs) (hnd : (hd :: addrs).Nodup) (hlen : addrs.length ≤ 1) :
    q_delete_mid h hd fuel = (h, none, false) := by
  unfold q_delete_mid
  rw [if_pos ((ring_guard_iff h hd addrs hr hnd).mpr hlen)]

/-- On lists of at least two elements `q_delete_mid` unlinks and releases
exactly the element at index `⌊n/2⌋`, leaving the ring of the remaining
elements in order. -/
theorem q_delete_mid_long (h : Heap) (hd : Nat) (addrs : List Nat) (fuel : Nat)
    (hr : IsRing h hd addrs) (hnd : (hd :: addrs).Nodup) (h2 : 2 ≤ addrs.length)
    (hfuel : addrs.length / 2 ≤ fuel) :
    q_delete_mid h hd fuel =
      (list_del h (addrs.getD (addrs.length / 2) 0),
       some (addrs.getD (addrs.length / 2) 0), true)
    ∧ IsRing (q_delete_mid h hd fuel).1 hd (addrs.eraseIdx (addrs.length / 2)) := by
  have hguard : ¬((list_empty h hd || list_is_singular h hd) = true) := by
    rw [ring_guard_iff h hd addrs hr hnd]
    omega
  have hmid := midLoop_result h hd addrs fuel hr hnd h2 hfuel
  have heq : q_delete_mid h hd fuel =
      (list_del h (addrs.getD (addrs.length / 2) 0),
       some (addrs.getD (addrs.length / 2) 0), true) := by
    unfold q_delete_mid
    rw [if_neg hguard, hmid]
  refine ⟨heq, ?_⟩
  rw [heq]
  have hj : addrs.length / 2 < addrs.length := by omega
  have hdecomp : addrs = addrs.take (addrs.length / 2) ++
      addrs.getD (addrs.length / 2) 0 :: addrs.drop (addrs.length / 2 + 1) := by
    conv_lhs => rw [← List.take_append_drop (addrs.length / 2) addrs]
    rw [← List.getElem_cons_drop addrs (addrs.length / 2) hj,
      List.getD_eq_getElem _ _ hj]
  have hr' : IsRing h hd (addrs.take (addrs.length / 2) ++
      addrs.getD (addrs.length / 2) 0 :: addrs.drop (addrs.length / 2 + 1)) := by
    rw [← hdecomp]; exact hr
  have hnd' : (hd :: (addrs.take (addrs.length / 2) ++
      addrs.getD (addrs.length / 2) 0 :: addrs.drop (addrs.length / 2 + 1))).Nodup := by
    rw [← hdecomp]; exact hnd
  have hdel := ring_del_mid h hd (addrs.getD (addrs.length / 2) 0)
    (addrs.take (addrs.length / 2)) (addrs.drop (addrs.length / 2 + 1)) hr' hnd'
  rw [List.eraseIdx_eq_take_drop_succ]
  exact hdel

theorem q_swap_ring (h : Heap) (hd : Nat) (addrs : List Nat) (fuel : Nat)
    (hr : IsRing h hd addrs) (hnd : (hd :: addrs).Nodup) (hfuel : addrs.length < fuel) :
    IsRing (q_swap h hd fuel) hd (swapPairs addrs) := by
  unfold q_swap
  by_cases hg : (list_empty h hd || list_is_singular h hd) = true
  · rw [if_pos hg, swapPairs_short addrs ((ring_guard_iff h hd addrs hr hnd).mp hg)]
    exact hr
  · rw [if_neg hg]
    have hlen : 2 ≤ addrs.length := by
      by_contra hle
      exact hg ((ring_guard_iff h hd addrs hr hnd).mpr (by omega))
    cases addrs with
    | nil => simp at hlen
    | cons a rest =>
      have hnext : (h hd).next = a := by
        have hx := hr
        simp only [IsRing, LinkedNP] at hx
        exact hx.1
      rw [hnext]
      have := swapLoop_spec hd fuel rest [] h a (by simpa using hr) (by simpa using hnd)
        (by simp only [List.length_cons] at hfuel; omega)
      simpa using this

theorem ring_empty_iff (h : Heap) (hd : Nat) (addrs : List Nat)
    (hr : IsRing h hd addrs) (hnd : (hd :: addrs).Nodup) :
    list_empty h hd = true ↔ addrs = [] := by
  cases addrs with
  | nil =>
    simp only [IsRing, LinkedNP] at hr
    simp [list_empty, hr.1]
  | cons a rest =>
    simp only [IsRing, LinkedNP] at hr
    have hhda : hd ≠ a := by
      simp only [List.nodup_cons, List.mem_cons, not_or] at hnd
      exact hnd.1.1
    simp [list_empty, hr.1, Ne.symm hhda]

theorem ring_prev_last (h : Heap) (hd : Nat) (l : List Nat) (p : Nat)
    (hr : IsRing h hd (l ++ [p])) : (h hd).prev = p := by
  have := (linkedNP_append h hd p hd l []).mp hr
  exact this.2.2

/-- Heap effect of `q_remove_head` (queue.c lines 128-141): when non-empty,
unlink the first entry (`head->next`) and hand it to the caller.  The buffer
write and the `head == NULL` case live in the value-level model. -/
def q_remove_head_h (h : Heap) (hd : Nat) : Heap × Option Nat :=
  if list_empty h hd then (h, none)
  else (list_del h ((h hd).next), some ((h hd).next))

/-- Heap effect of `q_remove_tail` (queue.c lines 147-160): when non-empty,
unlink the last entry (`head->prev`). -/
def q_remove_tail_h (h : Heap) (hd : Nat) : Heap × Option Nat :=
  if list_empty h hd then (h, none)
  else (list_del h ((h hd).prev), some ((h hd).prev))

theorem q_remove_head_ring (h : Heap) (hd : Nat) (a : Nat) (rest : List Nat)
    (hr : IsRing h hd (a :: rest)) (hnd : (hd :: a :: rest).Nodup) :
    q_remove_head_h h hd = (list_del h a, some a) ∧ IsRing (list_del h a) hd rest := by
  have hnext : (h hd).next = a := by
    have hx := hr
    simp only [IsRing, LinkedNP] at hx
    exact hx.1
  have hne : list_empty h hd = false := by
    rw [← Bool.not_eq_true]
    rw [ring_empty_iff h hd (a :: rest) hr hnd]
    simp
  constructor
  · unfold q_remove_head_h
    rw [hne]
    simp [hnext]
  · exact ring_del_first h hd a rest hr hnd

theorem q_remove_tail_ring (h : Heap) (hd : Nat) (p : Nat) (l : List Nat)
    (hr : IsRing h hd (l ++ [p])) (hnd : (hd :: (l ++ [p])).Nodup) :
    q_remove_tail_h h hd = (list_del h p, some p) ∧ IsRing (list_del h p) hd l := by
  have hprev : (h hd).prev = p := ring_prev_last h hd l p hr
  have hne : list_empty h hd = false := by
    rw [← Bool.not_eq_true]
    rw [ring_empty_iff h hd (l ++ [p]) hr hnd]
    simp
  constructor
  · unfold q_remove_tail_h
    rw [hne]
    simp [hprev]
  · have := ring_del_mid h hd p l [] hr hnd
    simpa using this

/-- Write the `next`/`prev` links of a chain: from node `a` through the
nodes of `l` in order, closing the last link at `z`.  This is the combined
pointer effect of `merge()` building the sorted `next` chain (queue.c lines
301-321) and `reconnect()` rebuilding the `prev` links and re-closing the
ring (queue.c lines 330-340). -/
def writeLinks (h : Heap) (a : Nat) : List Nat → Nat → Heap
  | [], z => setPrev (setNext h a z) z a
  | b :: l, z => writeLinks (setPrev (setNext h a b) b a) b l z

theorem writeLinks_spec : ∀ (l : List Nat) (h : Heap) (a z : Nat),
    a ∉ l → z ∉ l → l.Nodup →
    LinkedNP (writeLinks h a l z) a l z
    ∧ (∀ x, x ∉ a :: l → ((writeLinks h a l z) x).next = (h x).next)
    ∧ (∀ x, x ∉ a :: l → x ≠ z → (writeLinks h a l z) x = h x)
    ∧ (a ≠ z → ((writeLinks h a l z) a).prev = (h a).prev) := by
  intro l
  induction l with
  | nil =>
    intro h a z _ _ _
    refine ⟨⟨?_, ?_⟩, ?_, ?_, ?_⟩
    · simp [writeLinks]
    · simp [writeLinks]
    · intro x hx
      have hxa : x ≠ a := by simpa using hx
      simp [writeLinks, hxa]
    · intro x hx hxz
      have hxa : x ≠ a := by simpa using hx
      refine Node.ext' _ _ ?_ ?_ <;> simp [writeLinks, hxa, hxz]
    · intro haz
      simp [writeLinks, haz]
  | cons b t ih =>
    intro h a z hal hzl hnd
    have hab : a ≠ b := fun hh => hal (hh ▸ List.mem_cons_self b t)
    have hat : a ∉ t := fun hh => hal (List.mem_cons_of_mem _ hh)
    have hzb : z ≠ b := fun hh => hzl (hh ▸ List.mem_cons_self b t)
    have hzt : z ∉ t := fun hh => hzl (List.mem_cons_of_mem _ hh)
    have hbt : b ∉ t := (List.nodup_cons.mp hnd).1
    have hndt : t.Nodup := (List.nodup_cons.mp hnd).2
    obtain ⟨ihL, ihN, ihF, ihP⟩ := ih (setPrev (setNext h a b) b a) b z hbt hzt hndt
    refine ⟨⟨?_, ?_, ihL⟩, ?_, ?_, ?_⟩
    · show ((writeLinks (setPrev (setNext h a b) b a) b t z) a).next = b
      rw [ihN a (by simp [hab, hat])]
      simp [Ne.symm hab]
    · show ((writeLinks (setPrev (setNext h a b) b a) b t z) b).prev = a
      rw [ihP (Ne.symm hzb)]
      simp
    · intro x hx
      simp only [List.mem_cons, not_or] at hx
      obtain ⟨hxa, hxb, hxt⟩ := hx
      show ((writeLinks (setPrev (setNext h a b) b a) b t z) x).next = (h x).next
      rw [ihN x (by simp [hxb, hxt])]
      simp [hxa]
    · intro x hx hxz
      simp only [List.mem_cons, not_or] at hx
      obtain ⟨hxa, hxb, hxt⟩ := hx
      show (writeLinks (setPrev (setNext h a b) b a) b t z) x = h x
      rw [ihF x (by simp [hxb, hxt]) hxz]
      refine Node.ext' _ _ ?_ ?_ <;> simp [hxa, hxb]
    · intro haz
      show ((writeLinks (setPrev (setNext h a b) b a) b t z) a).prev = (h a).prev
      rw [ihF a (by simp [hab, hat]) haz]
      simp [hab]

theorem writeLinks_ring (h : Heap) (hd : Nat) (l : List Nat)
    (hnd : (hd :: l).Nodup) : IsRing (writeLinks h hd l hd) hd l :=
  (writeLinks_spec l h hd hd (List.nodup_cons.mp hnd).1 (List.nodup_cons.mp hnd).1
    (List.nodup_cons.mp hnd).2).1

theorem cMergeSort_short (cmp : α → α → Int) (l : List α) (hl : l.length ≤ 1) :
    cMergeSort cmp l = l := by
  match l with
  | [] => simp [cMergeSort]
  | [x] => simp [cMergeSort]

/-- Model of `q_sort` (queue.c lines 372-381): no effect on empty or
singular lists; otherwise the ring is broken into a null-terminated `next`
chain (`head->prev->next = NULL`), the chain is merge sorted with
`element_t_cmp` (byte-wise `strcmp` on the element values, queue.c lines
284-289), and the ring links are rewritten in the sorted order (the combined
effect of `merge` and `reconnect`).  `chain` is the list of element
addresses in ring order, i.e. the contents of the detached chain; `val`
gives the string stored at each element. -/
def q_sort (h : Heap) (hd : Nat) (chain : List Nat) (val : Nat → Str) : Heap :=
  if list_empty h hd || list_is_singular h hd then h
  else writeLinks h hd (cMergeSort (fun a b => strcmp (val a) (val b)) chain) hd

theorem q_sort_ring (h : Heap) (hd : Nat) (addrs : List Nat) (val : Nat → Str)
    (hr : IsRing h hd addrs) (hnd : (hd :: addrs).Nodup) :
    IsRing (q_sort h hd addrs val) hd
      (cMergeSort (fun a b => strcmp (val a) (val b)) addrs) := by
  unfold q_sort
  by_cases hg : (list_empty h hd || list_is_singular h hd) = true
  · rw [if_pos hg,
      cMergeSort_short _ addrs ((ring_guard_iff h hd addrs hr hnd).mp hg)]
    exact hr
  · rw [if_neg hg]
    refine writeLinks_ring h hd _ ?_
    have hperm : (hd :: cMergeSort (fun a b => strcmp (val a) (val b)) addrs).Perm
        (hd :: addrs) := (cMergeSort_perm _ addrs).cons hd
    exact hperm.nodup_iff.mpr hnd

/-!
State machine over the queue operations.

A state carries the heap, the sentinel address, the (ghost) list of element
addresses in ring order, the strings stored in the elements and an
allocation counter supplying fresh addresses (`malloc` never returns an
address already in use).
-/

structure QState where
  h : Heap
  hd : Nat
  addrs : List Nat
  val : Nat → Str
  ctr : Nat

/-- The queue operations named by the spec (inserts carry the string to
store; removals by a caller that owns a large enough buffer). -/
inductive Op where
  | insH : Str → Op
  | insT : Str → Op
  | rmH : Op
  | rmT : Op
  | delMid : Op
  | swap : Op
  | rev : Op
  | sort : Op

/-- Address comparison through the stored strings: `element_t_cmp`
(queue.c lines 284-289) reads the two elements' `value` strings and applies
`strcmp`. -/
def vcmp (val : Nat → Str) : Nat → Nat → Int := fun a b => strcmp (val a) (val b)

/-- One queue operation as a state transition.  Each case applies the
heap-level model of the corresponding `queue.c` function, with the fuel of
the loops bounded by the list length, and updates the ghost address list
accordingly. -/
def step (st : QState) (op : Op) : QState :=
  match op with
  | .insH s =>
    { st with
      h := list_add st.h st.ctr st.hd
      addrs := st.ctr :: st.addrs
      val := fun a => if a = st.ctr then s else st.val a
      ctr := st.ctr + 1 }
  | .insT s =>
    { st with
      h := list_add_tail st.h st.ctr st.hd
      addrs := st.addrs ++ [st.ctr]
      val := fun a => if a = st.ctr then s else st.val a
      ctr := st.ctr + 1 }
  | .rmH =>
    if list_empty st.h st.hd then st
    else { st with
           h := (q_remove_head_h st.h st.hd).1
           addrs := st.addrs.tail }
  | .rmT =>
    if list_empty st.h st.hd then st
    else { st with
           h := (q_remove_tail_h st.h st.hd).1
           addrs := st.addrs.dropLast }
  | .delMid =>
    { st with
      h := (q_delete_mid st.h st.hd (st.addrs.length + 1)).1
      addrs := if st.addrs.length ≤ 1 then st.addrs
               else st.addrs.eraseIdx (st.addrs.length / 2) }
  | .swap =>
    { st with
      h := q_swap st.h st.hd (st.addrs.length + 1)
      addrs := swapPairs st.addrs }
  | .rev =>
    { st with
      h := q_reverse st.h st.hd (st.addrs.length + 1)
      addrs := st.addrs.reverse }
  | .sort =>
    { st with
      h := q_sort st.h st.hd st.addrs st.val
      addrs := cMergeSort (vcmp st.val) st.addrs }

/-- A freshly created queue (`q_new`, queue.c lines 23-37): one sentinel
node initialized to point at itself. -/
def qInit : QState :=
  { h := INIT_LIST_HEAD (fun _ => ⟨0, 0⟩) 0, hd := 0, addrs := [],
    val := fun _ => [], ctr := 1 }

def runOps (ops : List Op) : QState := ops.foldl step qInit

/-- Well-formedness: the heap's ring matches the ghost address list, the
sentinel and the elements are pairwise distinct, and all live addresses are
below the allocation counter. -/
def WF (st : QState) : Prop :=
  IsRing st.h st.hd st.addrs ∧ (st.hd :: st.addrs).Nodup ∧
    ∀ a ∈ st.hd :: st.addrs, a < st.ctr

theorem qInit_WF : WF qInit := by
  refine ⟨?_, by simp [qInit], ?_⟩
  · show LinkedNP (INIT_LIST_HEAD (fun _ => ⟨0, 0⟩) 0) 0 [] 0
    constructor <;> simp [INIT_LIST_HEAD]
  · intro a ha
    simp only [qInit, List.mem_singleton] at ha
    simp [qInit, ha]

theorem step_WF (st : QState) (op : Op) (hwf : WF st) : WF (step st op) := by
  obtain ⟨hr, hnd, hbound⟩ := hwf
  have hfresh : st.ctr ∉ st.hd :: st.addrs := fun hmem => by
    have := hbound _ hmem
    omega
  cases op with
  | insH s =>
    simp only [step]
    refine ⟨ring_add st.h st.hd st.ctr st.addrs hr hnd hfresh, ?_, ?_⟩
    · have hp : (st.hd :: st.ctr :: st.addrs).Perm (st.ctr :: st.hd :: st.addrs) :=
        List.Perm.swap st.ctr st.hd st.addrs
      exact hp.nodup_iff.mpr (List.nodup_cons.mpr ⟨hfresh, hnd⟩)
    · intro a ha
      show a < st.ctr + 1
      rcases List.mem_cons.mp ha with rfl | ha'
      · have := hbound st.hd (List.mem_cons_self _ _)
        show st.hd < st.ctr + 1
        omega
      · rcases List.mem_cons.mp ha' with rfl | ha''
        · omega
        · have := hbound _ (List.mem_cons_of_mem _ ha'')
          omega
  | insT s =>
    simp only [step]
    refine ⟨ring_add_tail st.h st.hd st.ctr st.addrs hr hnd hfresh, ?_, ?_⟩
    · have hp : (st.hd :: (st.addrs ++ [st.ctr])).Perm (st.ctr :: st.hd :: st.addrs) := by
        have h1 : (st.hd :: (st.addrs ++ [st.ctr])).Perm
            (st.hd :: (st.ctr :: st.addrs)) := by
          refine List.Perm.cons st.hd ?_
          have hpm : (st.addrs ++ st.ctr :: []).Perm (st.ctr :: (st.addrs ++ [])) :=
            List.perm_middle
          simpa using hpm
        exact h1.trans (List.Perm.swap st.ctr st.hd st.addrs)
      exact hp.nodup_iff.mpr (List.nodup_cons.mpr ⟨hfresh, hnd⟩)
    · intro a ha
      show a < st.ctr + 1
      rcases List.mem_cons.mp ha with rfl | ha'
      · have := hbound st.hd (List.mem_cons_self _ _)
        show st.hd < st.ctr + 1
        omega
      · rcases List.mem_append.mp ha' with ha'' | ha''
        · have := hbound _ (List.mem_cons_of_mem _ ha'')
          omega
        · simp only [List.mem_singleton] at ha''
          omega
  | rmH =>
    simp only [step]
    by_cases he : list_empty st.h st.hd = true
    · rw [if_pos he]
      exact ⟨hr, hnd, hbound⟩
    · rw [if_neg he]
      cases haddr : st.addrs with
      | nil =>
        exact absurd ((ring_empty_iff st.h st.hd st.addrs hr hnd).mpr haddr) he
      | cons a rest =>
        rw [haddr] at hr hnd
        have hspec := q_remove_head_ring st.h st.hd a rest hr hnd
        refine ⟨?_, ?_, ?_⟩
        · show IsRing (q_remove_head_h st.h st.hd).1 st.hd (a :: rest).tail
          rw [hspec.1]
          exact hspec.2
        · show (st.hd :: (a :: rest).tail).Nodup
          simp only [List.tail_cons]
          refine List.Nodup.sublist ?_ hnd
          exact List.Sublist.cons₂ _ (List.sublist_cons_self a rest)
        · intro x hx
          refine hbound x ?_
          rw [haddr]
          simp only [List.tail_cons] at hx
          rcases List.mem_cons.mp hx with rfl | hx'
          · exact List.mem_cons_self _ _
          · exact List.mem_cons_of_mem _ (List.mem_cons_of_mem _ hx')
  | rmT =>
    simp only [step]
    by_cases he : list_empty st.h st.hd = true
    · rw [if_pos he]
      exact ⟨hr, hnd, hbound⟩
    · rw [if_neg he]
      have hne : st.addrs ≠ [] := by
        intro hh
        exact he ((ring_empty_iff st.h st.hd st.addrs hr hnd).mpr hh)
      rcases List.eq_nil_or_concat st.addrs with hh | ⟨l, p, hh⟩
      · exact absurd hh hne
      · have hdl : st.addrs.dropLast = l := by
          rw [hh]
          simp
        rw [hh] at hr hnd
        simp only [List.concat_eq_append] at hr hnd
        have hspec := q_remove_tail_ring st.h st.hd p l hr hnd
        refine ⟨?_, ?_, ?_⟩
        · show IsRing (q_remove_tail_h st.h st.hd).1 st.hd st.addrs.dropLast
          rw [hdl, hspec.1]
          exact hspec.2
        · show (st.hd :: st.addrs.dropLast).Nodup
          rw [hdl]
          refine List.Nodup.sublist ?_ hnd
          exact List.Sublist.cons₂ _ (by simp)
        · intro x hx
          refine hbound x ?_
          rw [hh]
          rw [hdl] at hx
          rcases List.mem_cons.mp hx with rfl | hx'
          · exact List.mem_cons_self _ _
          · simp only [List.concat_eq_append]
            exact List.mem_cons_of_mem _ (List.mem_append_left _ hx')
  | delMid =>
    simp only [step]
    by_cases hlen : st.addrs.length ≤ 1
    · have heq := q_delete_mid_short st.h st.hd st.addrs (st.addrs.length + 1) hr hnd hlen
      rw [if_pos hlen, heq]
      exact ⟨hr, hnd, hbound⟩
    · have h2 : 2 ≤ st.addrs.length := by omega
      have hspec := q_delete_mid_long st.h st.hd st.addrs (st.addrs.length + 1) hr hnd h2
        (by omega)
      rw [if_neg hlen]
      refine ⟨hspec.2, ?_, ?_⟩
      · refine List.Nodup.sublist ?_ hnd
        exact List.Sublist.cons₂ _ (List.eraseIdx_sublist _ _)
      · intro x hx
        refine hbound x ?_
        rcases List.mem_cons.mp hx with rfl | hx'
        · exact List.mem_cons_self _ _
        · exact List.mem_cons_of_mem _ ((List.eraseIdx_sublist _ _).mem hx')
  | swap =>
    simp only [step]
    refine ⟨q_swap_ring st.h st.hd st.addrs (st.addrs.length + 1) hr hnd (by omega), ?_, ?_⟩
    · have hp : (st.hd :: swapPairs st.addrs).Perm (st.hd :: st.addrs) :=
        (swapPairs_perm st.addrs).cons st.hd
      exact hp.nodup_iff.mpr hnd
    · intro x hx
      refine hbound x ?_
      rcases List.mem_cons.mp hx with rfl | hx'
      · exact List.mem_cons_self _ _
      · exact List.mem_cons_of_mem _ ((swapPairs_perm st.addrs).mem_iff.mp hx')
  | rev =>
    simp only [step]
    refine ⟨q_reverse_ring st.h st.hd st.addrs (st.addrs.length + 1) hr hnd (by omega), ?_, ?_⟩
    · have hp : (st.hd :: st.addrs.reverse).Perm (st.hd :: st.addrs) :=
        (List.reverse_perm st.addrs).cons st.hd
      exact hp.nodup_iff.mpr hnd
    · intro x hx
      refine hbound x ?_
      rcases List.mem_cons.mp hx with rfl | hx'
      · exact List.mem_cons_self _ _
      · exact List.mem_cons_of_mem _ (List.mem_reverse.mp hx')
  | sort =>
    simp only [step]
    refine ⟨q_sort_ring st.h st.hd st.addrs st.val hr hnd, ?_, ?_⟩
    · have hp : (st.hd :: cMergeSort (vcmp st.val) st.addrs).Perm (st.hd :: st.addrs) :=
        (cMergeSort_perm _ st.addrs).cons st.hd
      exact hp.nodup_iff.mpr hnd
    · intro x hx
      refine hbound x ?_
      rcases List.mem_cons.mp hx with rfl | hx'
      · exact List.mem_cons_self _ _
      · exact List.mem_cons_of_mem _ ((cMergeSort_perm _ st.addrs).mem_iff.mp hx')

theorem runOps_WF (ops : List Op) : WF (runOps ops) := by
  have H : ∀ (ops : List Op) (st : QState), WF st → WF (ops.foldl step st) := by
    intro ops
    induction ops with
    | nil => intro st hst; exact hst
    | cons op ops' ih => intro st hst; exact ih _ (step_WF st op hst)
  exact H ops qInit qInit_WF

theorem linkedNP_np (h : Heap) : ∀ (l : List Nat) (x z : Nat), LinkedNP h x l z →
    ∀ a ∈ x :: l, (h ((h a).next)).prev = a := by
  intro l
  induction l with
  | nil =>
    intro x z hl a ha
    obtain ⟨h1, h2⟩ := hl
    rcases List.mem_cons.mp ha with rfl | hmem
    · rw [h1, h2]
    · cases hmem
  | cons b t ih =>
    intro x z hl a ha
    obtain ⟨h1, h2, hrest⟩ := hl
    rcases List.mem_cons.mp ha with rfl | hmem
    · rw [h1, h2]
    · exact ih b z hrest a hmem

theorem linkedNP_pn (h : Heap) : ∀ (l : List Nat) (x z : Nat), LinkedNP h x l z →
    ∀ a ∈ l ++ [z], (h ((h a).prev)).next = a := by
  intro l
  induction l with
  | nil =>
    intro x z hl a ha
    obtain ⟨h1, h2⟩ := hl
    simp only [List.nil_append, List.mem_singleton] at ha
    subst ha
    rw [h2, h1]
  | cons b t ih =>
    intro x z hl a ha
    obtain ⟨h1, h2, hrest⟩ := hl
    rcases List.mem_cons.mp ha with rfl | hmem
    · rw [h2, h1]
    · exact ih b z hrest a hmem

/-- A well-formed ring is doubly-consistent at every node, sentinel
included. -/
theorem ring_consistent (h : Heap) (hd : Nat) (addrs : List Nat)
    (hr : IsRing h hd addrs) :
    ∀ a ∈ hd :: addrs, (h ((h a).next)).prev = a ∧ (h ((h a).prev)).next = a := by
  intro a ha
  constructor
  · exact linkedNP_np h addrs hd hd hr a ha
  · refine linkedNP_pn h addrs hd hd hr a ?_
    rcases List.mem_cons.mp ha with rfl | hmem
    · exact List.mem_append_right _ (List.mem_singleton.mpr rfl)
    · exact List.mem_append_left _ hmem

/-!
Value-level models: the queue as its list of element strings, with the
buffer-writing and allocation behavior of the source made explicit.
-/

/-- Model of C `strncpy(dst, src, n)`: writes exactly `n` bytes at the start
of `dst` — the bytes of `src` up to `n`, zero-padded if `src` is shorter —
and leaves the rest of `dst` unchanged. -/
def strncpyBuf (dst src : List Nat) (n : Nat) : List Nat :=
  (src.take n ++ List.replicate (n - src.length) 0) ++ dst.drop n

/-- Outcome of a removal call: `noq` models the NULL return (null or empty
queue, nothing modified); `crash` models undefined behavior (a write
through a null `sp`, or the `bufsize - 1` underflow when `bufsize = 0`);
`ok` carries the removed element's string, the caller's buffer after the
copy, and the remaining queue. -/
inductive RemResult where
  | noq : RemResult
  | crash : RemResult
  | ok : Str → List Nat → List Str → RemResult
deriving DecidableEq

/-- Value-level model of `q_remove_head` (queue.c lines 128-141): NULL or
empty queue returns NULL; otherwise the source executes
`strncpy(sp, rm->value, bufsize - 1)` and `*(sp + bufsize - 1) = 0`
unconditionally before unlinking — with `sp == NULL` that dereferences a
null pointer, and with `bufsize == 0` the `size_t` subtraction underflows;
both are modelled as `crash`. -/
def q_remove_head_m : Option (List Str) → Option (List Nat) → Nat → RemResult
  | none, _, _ => .noq
  | some [], _, _ => .noq
  | some (_ :: _), none, _ => .crash
  | some (v :: rest), some buf, bufsize =>
    if bufsize = 0 then .crash
    else .ok v ((strncpyBuf buf v (bufsize - 1)).set (bufsize - 1) 0) rest

/-- Value-level model of `q_remove_tail` (queue.c lines 147-160): same as
`q_remove_head` with the last element (`list_last_entry`). -/
def q_remove_tail_m : Option (List Str) → Option (List Nat) → Nat → RemResult
  | none, _, _ => .noq
  | some [], _, _ => .noq
  | some (_ :: _), none, _ => .crash
  | some (v :: rest), some buf, bufsize =>
    if bufsize = 0 then .crash
    else .ok ((v :: rest).getLast (by simp))
      ((strncpyBuf buf ((v :: rest).getLast (by simp)) (bufsize - 1)).set (bufsize - 1) 0)
      ((v :: rest).dropLast)

/-- Value-level model of `q_insert_head` (queue.c lines 63-83): fails with
no change on a NULL head; `mallocOk` and `strdupOk` model the success of
the element allocation and of `strdup` (on `strdup` failure the element
record is freed again); the new element is linked at the front only after
both succeed. -/
def q_insert_head_m (q : Option (List Str)) (s : Str) (mallocOk strdupOk : Bool) :
    Bool × Option (List Str) :=
  match q with
  | none => (false, none)
  | some l =>
    if !mallocOk then (false, some l)
    else if !strdupOk then (false, some l)
    else (true, some (s :: l))

/-- Value-level model of `q_insert_tail` (queue.c lines 92-112): as
`q_insert_head` but linking at the back. -/
def q_insert_tail_m (q : Option (List Str)) (s : Str) (mallocOk strdupOk : Bool) :
    Bool × Option (List Str) :=
  match q with
  | none => (false, none)
  | some l =>
    if !mallocOk then (false, some l)
    else if !strdupOk then (false, some l)
    else (true, some (l ++ [s]))

/-- Heap allocations owned by a queue: each element (identified by an
index) owns its record (`element_t`) and its `strdup`-allocated string; the
queue owns the sentinel node. -/
inductive Alloc where
  | elemRec : Nat → Alloc
  | elemStr : Nat → Alloc
  | sentinel : Alloc
deriving DecidableEq

/-- Model of `q_free` (queue.c lines 40-54): the allocations the function
passes to `free` — it iterates over the entries with
`list_for_each_entry_safe`, unlinks each and calls `free(entry)` (the
element record only; `entry->value` is never freed), then frees the
sentinel (`free(l)`). -/
def q_free_m : List Nat → List Alloc
  | [] => [Alloc.sentinel]
  | i :: rest => Alloc.elemRec i :: q_free_m rest

/-- The storage a queue of elements owns (data model, spec section 3): all
element records, all element strings, and the sentinel. -/
def queueOwned (l : List Nat) : List Alloc :=
  (l.map Alloc.elemRec) ++ (l.map Alloc.elemStr) ++ [Alloc.sentinel]

/-- Model of `q_delete_dup` (queue.c lines 235-239): the body is a stub —
it deletes nothing and returns `true` unconditionally. -/
def q_delete_dup_m (q : Option (List Str)) : Option (List Str) × Bool := (q, true)

/-- Modelled from the spec: the documented contract of `delete_duplicates`
(spec section 4.7) — from a sorted list, remove every element whose string
occurs more than once, keeping only the values that are unique. -/
def specDeleteDup (l : List Str) : List Str := l.filter (fun s => l.count s == 1)

/-- Value-level view of `q_sort` (queue.c lines 372-381) on the queue's
list of strings: the empty/singular guard is a no-op, otherwise the merge
sort engine runs with `element_t_cmp` (byte-wise `strcmp` on the values). -/
def q_sort_m (l : List Str) : List Str :=
  if l.length ≤ 1 then l else cMergeSort strcmp l

/-- Nullable wrapper of `q_sort`: `head == NULL` is a no-op. -/
def q_sort_c : Option (List Str) → Option (List Str)
  | none => none
  | some l => some (q_sort_m l)

/-- Nullable wrapper of the heap-level `q_swap`: `head == NULL` is a
no-op. -/
def q_swap_c : Option (Heap × Nat) → Nat → Option (Heap × Nat)
  | none, _ => none
  | some (h, hd), fuel => some (q_swap h hd fuel, hd)

/-- Nullable wrapper of the heap-level `q_delete_mid`: `head == NULL`
returns `false` and changes nothing. -/
def q_delete_mid_c : Option (Heap × Nat) → Nat → Option (Heap × Nat) × Option Nat × Bool
  | none, _ => (none, none, false)
  | some (h, hd), fuel =>
    (some ((q_delete_mid h hd fuel).1, hd),
     (q_delete_mid h hd fuel).2.1, (q_delete_mid h hd fuel).2.2)

theorem take_set_le {α : Type} (l : List α) (i k : Nat) (v : α) (h : k ≤ i) :
    (l.set i v).take k = l.take k := by
  induction l generalizing i k with
  | nil => simp
  | cons x xs ih =>
    match i, k with
    | _, 0 => simp
    | 0, k + 1 => omega
    | i + 1, k + 1 =>
      have hset : (x :: xs).set (i + 1) v = x :: xs.set i v := rfl
      rw [hset, List.take_succ_cons, List.take_succ_cons, ih i k (by omega)]

theorem set_append_right {α : Type} (l1 l2 : List α) (i : Nat) (v : α)
    (h : l1.length ≤ i) :
    (l1 ++ l2).set i v = l1 ++ l2.set (i - l1.length) v := by
  induction l1 generalizing i with
  | nil => simp
  | cons x xs ih =>
    match i with
    | 0 => simp at h
    | i + 1 =>
      have hset : ((x :: xs) ++ l2).set (i + 1) v = x :: (xs ++ l2).set i v := rfl
      rw [hset, ih i (by simpa using h)]
      simp [Nat.succ_sub_succ]

/-- After `strncpy(sp, s, bufsize - 1)` and `sp[bufsize - 1] = 0` with
`bufsize > len(s)`, the buffer starts with the bytes of `s` followed by a
null byte. -/
theorem buffer_roundtrip (s : Str) (buf : List Nat) (bufsize : Nat)
    (hlen : s.length < bufsize) (hbuf : buf.length = bufsize) :
    ((strncpyBuf buf s (bufsize - 1)).set (bufsize - 1) 0).take (s.length + 1) = s ++ [0] := by
  unfold strncpyBuf
  have htk : s.take (bufsize - 1) = s := List.take_of_length_le (by omega)
  rw [htk]
  by_cases hcase : s.length < bufsize - 1
  · rw [take_set_le _ _ _ _ (by omega), List.append_assoc, List.take_append 1]
    have hrep : List.replicate (bufsize - 1 - s.length) (0 : Nat) =
        0 :: List.replicate (bufsize - 1 - s.length - 1) 0 := by
      have h1 : bufsize - 1 - s.length = (bufsize - 1 - s.length - 1) + 1 := by omega
      conv_lhs => rw [h1]
      rw [List.replicate_succ]
    rw [hrep]
    simp
  · have h0 : bufsize - 1 - s.length = 0 := by omega
    rw [h0]
    simp only [List.replicate, List.append_nil]
    have hdl : (buf.drop (bufsize - 1)).length = 1 := by
      simp only [List.length_drop, hbuf]
      omega
    obtain ⟨b, hb⟩ := List.length_eq_one.mp hdl
    rw [hb, set_append_right s [b] (bufsize - 1) 0 (by omega),
      show bufsize - 1 - s.length = 0 from h0]
    show ((s ++ [0]).take (s.length + 1)) = s ++ [0]
    rw [List.take_of_length_le (by simp)]

/-!
Claim theorems.
-/

/-- Demonstration heap used by concrete witnesses: the sentinel 0 with the
six elements 1..6 linked into a ring. -/
def demo6 : Heap := writeLinks (fun _ => ⟨0, 0⟩) 0 [1, 2, 3, 4, 5, 6] 0

/-- C1: for every sequence of valid queue operations (insert head/tail,
remove head/tail, delete middle, swap, reverse, sort) starting from a
freshly created queue, the resulting list is circular and doubly
consistent: every node `n` of the ring, the sentinel included, satisfies
`n.next.prev = n` and `n.prev.next = n`. -/
theorem claim_C1 (ops : List Op) :
    ∀ a ∈ (runOps ops).hd :: (runOps ops).addrs,
      ((runOps ops).h (((runOps ops).h a).next)).prev = a ∧
      ((runOps ops).h (((runOps ops).h a).prev)).next = a :=
  fun a ha => ring_consistent _ _ _ (runOps_WF ops).1 a ha

theorem claim_C1_witness :
    (0 ∈ (runOps [Op.insH [104], Op.insT [105], Op.insH [106], Op.rev, Op.swap]).hd ::
      (runOps [Op.insH [104], Op.insT [105], Op.insH [106], Op.rev, Op.swap]).addrs) ∧
    (((runOps [Op.insH [104], Op.insT [105], Op.insH [106], Op.rev, Op.swap]).h
        (((runOps [Op.insH [104], Op.insT [105], Op.insH [106], Op.rev, Op.swap]).h 0).next)).prev
        = 0 ∧
     ((runOps [Op.insH [104], Op.insT [105], Op.insH [106], Op.rev, Op.swap]).h
        (((runOps [Op.insH [104], Op.insT [105], Op.insH [106], Op.rev, Op.swap]).h 0).prev)).next
        = 0) :=
  ⟨by decide, claim_C1 [Op.insH [104], Op.insT [105], Op.insH [106], Op.rev, Op.swap] 0
    (by decide)⟩

/-- C2: `q_sort` sorts ascending by byte-wise string comparison
(`element_t_cmp` = `strcmp`), is stable — `merge` takes the left operand on
`cmp = 0`, so elements with equal strings keep their relative input order
(stated through the engine on (string, tag) pairs compared by their string
exactly as `element_t_cmp` compares elements by their value) — produces a
permutation of the input, and has no effect on null, empty or
single-element lists.  The `strOk` hypotheses say the strings contain no
interior null byte, which is true of every C string. -/
theorem claim_C2 :
    (∀ l : List Str, (∀ s ∈ l, strOk s) →
      List.Pairwise (fun a b => strcmp a b ≤ 0) (q_sort_m l) ∧ (q_sort_m l).Perm l) ∧
    (∀ pl : List (Str × Nat), (∀ p ∈ pl, strOk p.1) → ∀ v : Str,
      (cMergeSort (fun p q => strcmp p.1 q.1) pl).filter (fun p => p.1 == v) =
        pl.filter (fun p => p.1 == v)) ∧
    q_sort_c none = none ∧
    (∀ l : List Str, l.length ≤ 1 → q_sort_m l = l) := by
  refine ⟨?_, ?_, rfl, ?_⟩
  · intro l hok
    unfold q_sort_m
    by_cases hl : l.length ≤ 1
    · rw [if_pos hl]
      constructor
      · match l with
        | [] => simp
        | [x] => simp
      · exact List.Perm.refl l
    · rw [if_neg hl]
      refine ⟨?_, cMergeSort_perm strcmp l⟩
      exact cMergeSort_pairwise strcmp strOk
        (fun x y _ _ hpos => by rw [strcmp_swap]; omega)
        (fun x y z hx hy _ hxy hyz => strcmp_trans hx hy hxy hyz)
        l hok
  · intro pl hok v
    refine cMergeSort_filter (fun p q => strcmp p.1 q.1) (fun p => strOk p.1)
      (fun p => p.1 == v) ?_ ?_ ?_ pl hok
    · intro x y _ _ hpos
      show strcmp y.1 x.1 ≤ 0
      rw [show strcmp y.1 x.1 = -strcmp x.1 y.1 from strcmp_swap x.1 y.1]
      have hpos' : 0 < strcmp x.1 y.1 := hpos
      omega
    · intro x y hx hy
      have hx' : x.1 = v := by simpa using hx
      have hy' : y.1 = v := by simpa using hy
      show strcmp x.1 y.1 ≤ 0
      rw [hx', hy', strcmp_self]
    · intro x y z hx hy _ hxy hyz
      exact strcmp_trans hx hy hxy hyz
  · intro l hl
    unfold q_sort_m
    rw [if_pos hl]

theorem claim_C2_witness :
    (∀ s ∈ ([[98], [97], [98, 99]] : List Str), strOk s) ∧
    (List.Pairwise (fun a b => strcmp a b ≤ 0) (q_sort_m [[98], [97], [98, 99]]) ∧
      (q_sort_m [[98], [97], [98, 99]]).Perm [[98], [97], [98, 99]]) :=
  ⟨by decide, claim_C2.1 [[98], [97], [98, 99]] (by decide)⟩

/-- C3: on a ring of `n ≥ 2` elements, `q_delete_mid` unlinks and releases
(string then record, via `q_release_element`) exactly the element at
0-based index `⌊n/2⌋` — index 3 when `n = 6` — leaving the remaining
elements in their original relative order; on empty or singular lists it
returns `false` and changes nothing, and on a NULL head the nullable
wrapper returns `false` and changes nothing. -/
theorem claim_C3 (h : Heap) (hd : Nat) (addrs : List Nat) (fuel : Nat)
    (hr : IsRing h hd addrs) (hnd : (hd :: addrs).Nodup) (hfuel : addrs.length ≤ fuel) :
    (2 ≤ addrs.length →
      q_delete_mid h hd fuel =
        (list_del h (addrs.getD (addrs.length / 2) 0),
         some (addrs.getD (addrs.length / 2) 0), true) ∧
      IsRing (q_delete_mid h hd fuel).1 hd (addrs.eraseIdx (addrs.length / 2))) ∧
    (addrs.length ≤ 1 → q_delete_mid h hd fuel = (h, none, false)) ∧
    (∀ f2, q_delete_mid_c none f2 = (none, none, false)) ∧
    (addrs.length = 6 → (q_delete_mid h hd fuel).2.1 = some (addrs.getD 3 0)) := by
  refine ⟨?_, ?_, fun f2 => rfl, ?_⟩
  · intro h2
    exact q_delete_mid_long h hd addrs fuel hr hnd h2 (by omega)
  · intro h1
    exact q_delete_mid_short h hd addrs fuel hr hnd h1
  · intro h6
    have h2 : 2 ≤ addrs.length := by omega
    have heq := (q_delete_mid_long h hd addrs fuel hr hnd h2 (by omega)).1
    rw [heq, h6]

theorem claim_C3_witness :
    (IsRing demo6 0 [1, 2, 3, 4, 5, 6] ∧ ([0, 1, 2, 3, 4, 5, 6] : List Nat).Nodup ∧
      ([1, 2, 3, 4, 5, 6] : List Nat).length ≤ 7) ∧
    ((2 ≤ ([1, 2, 3, 4, 5, 6] : List Nat).length →
      q_delete_mid demo6 0 7 =
        (list_del demo6 (([1, 2, 3, 4, 5, 6] : List Nat).getD
          (([1, 2, 3, 4, 5, 6] : List Nat).length / 2) 0),
         some (([1, 2, 3, 4, 5, 6] : List Nat).getD
          (([1, 2, 3, 4, 5, 6] : List Nat).length / 2) 0), true) ∧
      IsRing (q_delete_mid demo6 0 7).1 0
        (([1, 2, 3, 4, 5, 6] : List Nat).eraseIdx
          (([1, 2, 3, 4, 5, 6] : List Nat).length / 2))) ∧
    (([1, 2, 3, 4, 5, 6] : List Nat).length ≤ 1 → q_delete_mid demo6 0 7 = (demo6, none, false)) ∧
    (∀ f2, q_delete_mid_c none f2 = (none, none, false)) ∧
    (([1, 2, 3, 4, 5, 6] : List Nat).length = 6 →
      (q_delete_mid demo6 0 7).2.1 = some (([1, 2, 3, 4, 5, 6] : List Nat).getD 3 0))) :=
  ⟨⟨by decide, by decide, by decide⟩,
   claim_C3 demo6 0 [1, 2, 3, 4, 5, 6] 7 (by decide) (by decide) (by decide)⟩

/-- C4: `q_delete_dup` is a stub (`return true;`, queue.c line 238): it
removes nothing.  On the already-sorted list ["a", "a"] the code keeps both
copies and reports success, while the documented contract leaves only the
values that were unique — the empty list. -/
theorem claim_C4 :
    q_delete_dup_m (some [[97], [97]]) = (some [[97], [97]], true) ∧
    specDeleteDup [[97], [97]] = [] ∧
    (q_delete_dup_m (some [[97], [97]])).1 ≠ some (specDeleteDup [[97], [97]]) :=
  ⟨rfl, by decide, by decide⟩

/-- C5: `q_remove_head` and `q_remove_tail` call
`strncpy(sp, rm->value, bufsize - 1)` unconditionally (queue.c lines 135
and 154), dereferencing `sp` even when it is NULL — undefined behavior
before the element is ever unlinked — while the claim (and the function's
own comment) requires the copy only for non-null `sp`.  With a valid
buffer the same call succeeds. -/
theorem claim_C5 :
    q_remove_head_m (some [[97]]) none 8 = RemResult.crash ∧
    q_remove_tail_m (some [[97]]) none 8 = RemResult.crash ∧
    q_remove_head_m (some [[97]]) (some [7, 7, 7, 7, 7, 7, 7, 7]) 8 ≠ RemResult.crash :=
  ⟨rfl, rfl, by decide⟩

/-- C6: `q_free` frees each element record (`free(entry)`) and the sentinel
but never the element's `strdup`-allocated string (queue.c lines 48-53
contain no `free(entry->value)`), so on a one-element queue the string
allocation is owned but never freed. -/
theorem claim_C6 :
    Alloc.elemStr 0 ∈ queueOwned [0] ∧
    Alloc.elemStr 0 ∉ q_free_m [0] ∧
    q_free_m [0] = [Alloc.elemRec 0, Alloc.sentinel] := by
  refine ⟨by decide, by decide, rfl⟩

/-- C7: round-trip — inserting string `s` at the head and immediately
removing from the head with a buffer of `bufsize > len(s)` succeeds, leaves
the queue as before, and the output buffer holds exactly the bytes of `s`
followed by the terminating null byte. -/
theorem claim_C7 (l : List Str) (s : Str) (buf : List Nat) (bufsize : Nat)
    (hlen : s.length < bufsize) (hbuf : buf.length = bufsize) :
    q_insert_head_m (some l) s true true = (true, some (s :: l)) ∧
    q_remove_head_m (some (s :: l)) (some buf) bufsize =
      RemResult.ok s ((strncpyBuf buf s (bufsize - 1)).set (bufsize - 1) 0) l ∧
    ((strncpyBuf buf s (bufsize - 1)).set (bufsize - 1) 0).take (s.length + 1) = s ++ [0] := by
  refine ⟨rfl, ?_, buffer_roundtrip s buf bufsize hlen hbuf⟩
  simp only [q_remove_head_m]
  rw [if_neg (by omega)]

theorem claim_C7_witness :
    (([97, 98] : Str).length < 4 ∧ ([7, 7, 7, 7] : List Nat).length = 4) ∧
    (q_insert_head_m (some []) [97, 98] true true = (true, some [[97, 98]]) ∧
     q_remove_head_m (some ([97, 98] :: [])) (some [7, 7, 7, 7]) 4 =
       RemResult.ok [97, 98] ((strncpyBuf [7, 7, 7, 7] [97, 98] (4 - 1)).set (4 - 1) 0) [] ∧
     ((strncpyBuf [7, 7, 7, 7] [97, 98] (4 - 1)).set (4 - 1) 0).take
       (([97, 98] : Str).length + 1) = [97, 98] ++ [0]) :=
  ⟨⟨by decide, by decide⟩, claim_C7 [] [97, 98] [7, 7, 7, 7] 4 (by decide) (by decide)⟩

/-- C8: `q_swap` exchanges the elements of each adjacent pair, leaves an
unpaired trailing element in place (a five-element list [a,b,c,d,e]
becomes [b,a,d,c,e]), only repositions the existing nodes (the result ring
is a permutation of the same elements — nothing is allocated or freed),
and has no effect on null, empty or single-element lists. -/
theorem claim_C8 (h : Heap) (hd : Nat) (addrs : List Nat) (fuel : Nat)
    (hr : IsRing h hd addrs) (hnd : (hd :: addrs).Nodup) (hfuel : addrs.length < fuel) :
    IsRing (q_swap h hd fuel) hd (swapPairs addrs) ∧
    (swapPairs addrs).Perm addrs ∧
    (addrs.length ≤ 1 → q_swap h hd fuel = h) ∧
    (∀ f2, q_swap_c none f2 = none) ∧
    (∀ a b c d e : Nat, swapPairs [a, b, c, d, e] = [b, a, d, c, e]) := by
  refine ⟨q_swap_ring h hd addrs fuel hr hnd hfuel, swapPairs_perm addrs, ?_,
    fun _ => rfl, fun a b c d e => rfl⟩
  intro hle
  unfold q_swap
  rw [if_pos ((ring_guard_iff h hd addrs hr hnd).mpr hle)]

theorem claim_C8_witness :
    (IsRing demo6 0 [1, 2, 3, 4, 5, 6] ∧ ([0, 1, 2, 3, 4, 5, 6] : List Nat).Nodup ∧
      ([1, 2, 3, 4, 5, 6] : List Nat).length < 7) ∧
    (IsRing (q_swap demo6 0 7) 0 (swapPairs [1, 2, 3, 4, 5, 6]) ∧
      (swapPairs ([1, 2, 3, 4, 5, 6] : List Nat)).Perm [1, 2, 3, 4, 5, 6] ∧
      (([1, 2, 3, 4, 5, 6] : List Nat).length ≤ 1 → q_swap demo6 0 7 = demo6) ∧
      (∀ f2, q_swap_c none f2 = none) ∧
      (∀ a b c d e : Nat, swapPairs [a, b, c, d, e] = [b, a, d, c, e])) :=
  ⟨⟨by decide, by decide, by decide⟩,
   claim_C8 demo6 0 [1, 2, 3, 4, 5, 6] 7 (by decide) (by decide) (by decide)⟩

/-- C9: reverse involution — applying `q_reverse` twice restores the heap
exactly (same element order, and values are untouched since `q_reverse`
writes no element payloads); a single `q_reverse` is exactly one
`next`/`prev` exchange per ring node, the sentinel included (`flipAll` over
the cycle), with no allocation or deallocation, and reverses the traversal
order. -/
theorem claim_C9 (h : Heap) (hd : Nat) (addrs : List Nat) (fuel : Nat)
    (hr : IsRing h hd addrs) (hnd : (hd :: addrs).Nodup) (hfuel : addrs.length < fuel) :
    q_reverse (q_reverse h hd fuel) hd fuel = h ∧
    q_reverse h hd fuel = flipAll h (hd :: addrs) ∧
    IsRing (q_reverse h hd fuel) hd addrs.reverse :=
  ⟨q_reverse_involution h hd addrs fuel hr hnd hfuel,
   q_reverse_eq_flipAll h hd addrs fuel hr hnd hfuel,
   q_reverse_ring h hd addrs fuel hr hnd hfuel⟩

theorem claim_C9_witness :
    (IsRing demo6 0 [1, 2, 3, 4, 5, 6] ∧ ([0, 1, 2, 3, 4, 5, 6] : List Nat).Nodup ∧
      ([1, 2, 3, 4, 5, 6] : List Nat).length < 7) ∧
    (q_reverse (q_reverse demo6 0 7) 0 7 = demo6 ∧
      q_reverse demo6 0 7 = flipAll demo6 (0 :: [1, 2, 3, 4, 5, 6]) ∧
      IsRing (q_reverse demo6 0 7) 0 ([1, 2, 3, 4, 5, 6] : List Nat).reverse) :=
  ⟨⟨by decide, by decide, by decide⟩,
   claim_C9 demo6 0 [1, 2, 3, 4, 5, 6] 7 (by decide) (by decide) (by decide)⟩

/-- C10: insertion failure atomicity — whenever `q_insert_head` or
`q_insert_tail` returns `false` (null head, element allocation failure, or
string duplication failure) the queue is exactly as before the call; the
new element is linked only on the success path. -/
theorem claim_C10 (q : Option (List Str)) (s : Str) (m d : Bool) :
    ((q_insert_head_m q s m d).1 = false → (q_insert_head_m q s m d).2 = q) ∧
    ((q_insert_tail_m q s m d).1 = false → (q_insert_tail_m q s m d).2 = q) ∧
    ((q_insert_head_m q s m d).1 = true →
      ∃ l, q = some l ∧ (q_insert_head_m q s m d).2 = some (s :: l)) ∧
    ((q_insert_tail_m q s m d).1 = true →
      ∃ l, q = some l ∧ (q_insert_tail_m q s m d).2 = some (l ++ [s])) := by
  cases q with
  | none => simp [q_insert_head_m, q_insert_tail_m]
  | some l => cases m <;> cases d <;> simp [q_insert_head_m, q_insert_tail_m]

theorem claim_C10_witness :
    (q_insert_head_m (some [[97]]) [98] false true).1 = false ∧
    (q_insert_head_m (some [[97]]) [98] false true).2 = some [[97]] :=
  ⟨by decide, (claim_C10 (some [[97]]) [98] false true).1 (by decide)⟩
